import Mathlib

/-!
# Verification of the vers-rs version-range engine

A shallow embedding of the `vers-rs` library (modules `comparator.rs`,
`constraint.rs`, `error.rs`, `range.rs`, `range/dynamic.rs`) into Lean 4,
together with proofs about parsing, normalization, validation, containment
and display of version range specifiers.

Strings from the Rust side are modelled as `List Char`.  The version type is
kept generic: any `V` with a `LinearOrder` instance models a Rust type
satisfying the `VT` trait bound (`FromStr + Default + Ord + Clone + Display +
Debug`); the fallible parser, the default value and the textual display of
the external version capability are supplied through a `VScheme` record.
Rust's `char::is_whitespace` and `str::to_lowercase` are modelled by
`Char.isWhitespace` and `Char.toLower` (they agree on the ASCII inputs
exercised here).
-/

/-- The `Comparator` enum from `comparator.rs`. -/
inductive Comparator where
  | Equal
  | NotEqual
  | LessThan
  | LessThanOrEqual
  | GreaterThan
  | GreaterThanOrEqual
  | Any
deriving DecidableEq, Repr

/-- Textual form of a comparator (`impl fmt::Display for Comparator`). -/
def compChars : Comparator → List Char
  | .Equal => ['=']
  | .NotEqual => ['!', '=']
  | .LessThan => ['<']
  | .LessThanOrEqual => ['<', '=']
  | .GreaterThan => ['>']
  | .GreaterThanOrEqual => ['>', '=']
  | .Any => ['*']

/-- Does the comparator belong to the lower-bound family `{>, >=}`? -/
def isLowerB : Comparator → Bool
  | .GreaterThan | .GreaterThanOrEqual => true
  | _ => false

/-- Does the comparator belong to the upper-bound family `{<, <=}`? -/
def isUpperB : Comparator → Bool
  | .LessThan | .LessThanOrEqual => true
  | _ => false

/-- Is the comparator one of the four bound comparators `<, <=, >, >=`? -/
def isBoundB (c : Comparator) : Bool := isLowerB c || isUpperB c

/-- The `VersError` enum from `error.rs`.  String payloads are `List Char`.
`InvalidVersioningScheme` is referenced by `range.rs` line 388 although
`error.rs` does not declare it; it is included here so that the behaviour of
`from_str` can be stated. -/
inductive VersError where
  | InvalidScheme
  | MissingVersioningScheme
  | EmptyConstraints
  | InvalidConstraint (detail : List Char)
  | DuplicateVersion (version : List Char)
  | InvalidRange (detail : List Char)
  | IncompatibleVersioningSchemes (a b : List Char)
  | UnsupportedVersioningScheme (s : List Char)
  | InvalidVersionFormat (scheme text err : List Char)
  | InvalidVersioningScheme (s : List Char)
deriving DecidableEq, Repr

/-- The `VersionConstraint` struct from `constraint.rs`: a comparator paired
with a version. -/
structure VersionConstraint (V : Type) where
  comparator : Comparator
  version : V
deriving DecidableEq, Repr

/-- `VersionConstraint::new`. -/
def VersionConstraint.new {V : Type} (comparator : Comparator) (version : V) :
    VersionConstraint V :=
  ⟨comparator, version⟩

/-- The `VersionRange` struct from `range.rs` (re-exported by the crate as
`GenericVersionRange`): a versioning-scheme name plus a list of
constraints. -/
structure VersionRange (V : Type) where
  versioning_scheme : List Char
  constraints : List (VersionConstraint V)
deriving DecidableEq, Repr

/-- `VersionRange::new`: direct construction without any validation. -/
def VersionRange.new {V : Type} (versioning_scheme : List Char)
    (constraints : List (VersionConstraint V)) : VersionRange V :=
  ⟨versioning_scheme, constraints⟩

/-- The test `constraints.len() == 1 && constraints[0].comparator == Any`
opening `VersionRange::contains` (range.rs line 281). -/
def soleAnyB {V : Type} : List (VersionConstraint V) → Bool
  | [c] => c.comparator = Comparator.Any
  | _ => false

/-- The single scan over all constraints performed at the start of
`VersionRange::contains` (range.rs lines 286-300): the first constraint whose
version equals the queried version decides, `=`/`>=`/`<=` giving `true` and
`!=` giving `false`; strict bounds and `Any` are skipped. -/
def scanEq {V : Type} [DecidableEq V] :
    List (VersionConstraint V) → V → Option Bool
  | [], _ => none
  | c :: rest, v =>
    match c.comparator with
    | .Equal | .GreaterThanOrEqual | .LessThanOrEqual =>
      if v = c.version then some true else scanEq rest v
    | .NotEqual =>
      if v = c.version then some false else scanEq rest v
    | _ => scanEq rest v

/-- The loop over the bound-family constraints in `VersionRange::contains`
(range.rs lines 318-353), with its `first` flag made explicit. -/
def rangeLoop {V : Type} [LinearOrder V] (version : V) :
    List (VersionConstraint V) → Bool → Bool
  | [], _ => false
  | c :: rest, first =>
    if first && isUpperB c.comparator && decide (version < c.version) then
      true
    else if rest.isEmpty && isLowerB c.comparator && decide (c.version < version) then
      true
    else
      match rest with
      | [] => false
      | n :: _ =>
        if isLowerB c.comparator && decide (c.version < version) &&
            isUpperB n.comparator && decide (version < n.version) then
          true
        else rangeLoop version rest false

/-- `VersionRange::contains` (range.rs lines 279-357).  The Rust method
returns `Result<bool, VersError>`; the embedding keeps the `Except` wrapper
so that the absence of error paths can be stated. -/
def VersionRange.contains {V : Type} [LinearOrder V] (r : VersionRange V)
    (version : V) : Except VersError Bool :=
  if soleAnyB r.constraints then
    .ok true
  else
    match scanEq r.constraints version with
    | some b => .ok b
    | none =>
      if r.constraints.all (fun c => c.comparator = Comparator.NotEqual) then
        .ok true
      else
        .ok (rangeLoop version
          (r.constraints.filter (fun c => isBoundB c.comparator)) true)

/-- Adjacent (lower-bound, upper-bound) pair test of spec section 4.4 step 4:
does the queried version lie strictly between some adjacent pair whose first
member is a lower bound and whose second member is an upper bound? -/
def adjacentPairHit {V : Type} [LinearOrder V] (version : V) :
    List (VersionConstraint V) → Bool
  | a :: b :: t =>
    (isLowerB a.comparator && decide (a.version < version) &&
      isUpperB b.comparator && decide (version < b.version)) ||
    adjacentPairHit version (b :: t)
  | _ => false

/-- The reference containment decision of spec section 4.4, written from the
spec's words (independently of `VersionRange.contains`): `true` for a sole
`Any`; `false` if some `!=` constraint names the version; `true` if some
`=`/`>=`/`<=` constraint names it; `true` if every constraint is `!=`;
otherwise a disjunction over the bound-family constraints in order: below the
first upper bound, above the last lower bound, or strictly inside an adjacent
(lower, upper) pair. -/
def specContains {V : Type} [LinearOrder V] (r : VersionRange V)
    (version : V) : Bool :=
  if soleAnyB r.constraints then
    true
  else if r.constraints.any (fun c =>
      c.comparator = Comparator.NotEqual && c.version = version) then
    false
  else if r.constraints.any (fun c =>
      (c.comparator = Comparator.Equal ||
       c.comparator = Comparator.GreaterThanOrEqual ||
       c.comparator = Comparator.LessThanOrEqual) && c.version = version) then
    true
  else if r.constraints.all (fun c => c.comparator = Comparator.NotEqual) then
    true
  else
    let bs := r.constraints.filter (fun c => isBoundB c.comparator)
    (match bs with
     | b :: _ => isUpperB b.comparator && decide (version < b.version)
     | [] => false) ||
    (match bs.getLast? with
     | some b => isLowerB b.comparator && decide (b.version < version)
     | none => false) ||
    adjacentPairHit version bs

/-- The sort key used by `normalize_and_validate`:
`sort_by(|a, b| a.version.cmp(&b.version))`. -/
def vle {V : Type} [LinearOrder V] (a b : VersionConstraint V) : Prop :=
  a.version ≤ b.version

instance {V : Type} [LinearOrder V] : DecidableRel (vle (V := V)) :=
  fun a b => inferInstanceAs (Decidable (a.version ≤ b.version))

instance {V : Type} [LinearOrder V] : IsTotal (VersionConstraint V) vle :=
  ⟨fun a b => le_total a.version b.version⟩

instance {V : Type} [LinearOrder V] : IsTrans (VersionConstraint V) vle :=
  ⟨fun _ _ _ h1 h2 => le_trans h1 h2⟩

/-- The stable sort of the constraint list by version.  Rust's stable
`sort_by` and insertion sort produce the same output for the same key
function. -/
def sortByVersion {V : Type} [LinearOrder V]
    (l : List (VersionConstraint V)) : List (VersionConstraint V) :=
  l.insertionSort vle

/-- The adjacent duplicate-version scan of `normalize_and_validate`
(range.rs lines 96-100), run on the sorted list: the version of the first
constraint equal to its predecessor, if any. -/
def firstDupVersion {V : Type} [DecidableEq V] :
    List (VersionConstraint V) → Option V
  | a :: b :: t =>
    if a.version = b.version then some b.version else firstDupVersion (b :: t)
  | _ => none

instance {α : Type} (l : List α) : Decidable (l = []) :=
  match l with
  | [] => isTrue rfl
  | _ :: _ => isFalse (by simp)

/-- The firing condition of the pass's lower-bound rules (range.rs lines
130-136 and 158-161): the first comparator is `>`/`>=` and the second is
`>`/`>=`/`=`. -/
def lowRedundant (a b : Comparator) : Bool :=
  isLowerB a && (isLowerB b || b = Comparator.Equal)

/-- The firing condition of the pass's upper-bound rules (range.rs lines
144-147 and 166-169): the first comparator is `=`/`<`/`<=` and the second is
`<`/`<=`. -/
def upRedundant (a b : Comparator) : Bool :=
  (a = Comparator.Equal || isUpperB a) && isUpperB b

/-- The redundancy-elimination loop of `normalize_and_validate` (range.rs
lines 125-177).  `filtered` is the accumulator `filtered_constraints`,
`stream` the linked list `other_constraints`; each iteration pops the stream
front, looks one element ahead and at the last accepted element, and either
drops a constraint (possibly re-queueing a survivor) or accepts the current
one. -/
def passAux {V : Type} :
    List (VersionConstraint V) → List (VersionConstraint V) →
    List (VersionConstraint V)
  | filtered, [] => filtered
  | filtered, [current] => filtered ++ [current]
  | filtered, current :: next :: rest =>
    if lowRedundant current.comparator next.comparator then
      -- discard the next constraint, re-add the current one
      passAux filtered (current :: rest)
    else if upRedundant current.comparator next.comparator then
      -- discard the current constraint, re-queue the last accepted one
      if hf : filtered = [] then passAux filtered (next :: rest)
      else passAux filtered.dropLast (filtered.getLast hf :: next :: rest)
    else
      if hf : filtered = [] then passAux (filtered ++ [current]) (next :: rest)
      else
        if lowRedundant (filtered.getLast hf).comparator current.comparator then
          -- discard the current constraint
          passAux filtered (next :: rest)
        else if upRedundant (filtered.getLast hf).comparator current.comparator then
          -- discard the previous constraint, accept the current one
          passAux (filtered.dropLast ++ [current]) (next :: rest)
        else
          passAux (filtered ++ [current]) (next :: rest)
termination_by filtered stream => (filtered.length + stream.length, stream.length)
decreasing_by
  all_goals simp_wf
  all_goals try have hlen : 0 < filtered.length := List.length_pos.mpr hf
  all_goals simp [Prod.lex_iff, List.length_dropLast]
  all_goals omega

/-- First violation of the rule "`=` must be followed only by `=`, `>` or
`>=`" (range.rs lines 182-197), over the comparators of the filtered
constraints. -/
def firstEqViolation : List Comparator → Option (Comparator × Comparator)
  | c1 :: c2 :: t =>
    if c1 = Comparator.Equal &&
        !(c2 = Comparator.Equal || isLowerB c2) then
      some (c1, c2)
    else firstEqViolation (c2 :: t)
  | _ => none

/-- First violation of the bound-alternation rule (range.rs lines 201-236),
over the comparators of the filtered constraints with `=` removed. -/
def firstAltViolation : List Comparator → Option (Comparator × Comparator)
  | c1 :: c2 :: t =>
    if (isUpperB c1 && !isLowerB c2) || (isLowerB c1 && !isUpperB c2) then
      some (c1, c2)
    else firstAltViolation (c2 :: t)
  | _ => none

/-- Error message for an `=`-adjacency violation (range.rs lines 189-194). -/
def eqViolationMsg (a b : Comparator) : List Char :=
  ['"'] ++ compChars a ++
  "\" must not be followed by \"".toList ++ compChars b ++
  "\" in a normalized range (ignoring \"!=\")".toList

/-- Error message for an alternation violation (range.rs lines 213-218 and
225-230). -/
def altViolationMsg (a b : Comparator) : List Char :=
  ['"'] ++ compChars a ++
  "\" must not be followed by \"".toList ++ compChars b ++
  "\" in a normalized range (ignoring \"!=\" and \"=\")".toList

/-- `VersionRange::normalize_and_validate` (range.rs lines 76-247).  The
Rust method mutates `self` and returns `Result<(), VersError>`; the
embedding returns the updated range.  `vshow` models `V`'s `Display`, used
for the `DuplicateVersion` payload. -/
def normalize_and_validate {V : Type} [LinearOrder V] (vshow : V → List Char)
    (r : VersionRange V) : Except VersError (VersionRange V) :=
  if r.constraints = [] then
    .error .EmptyConstraints
  else if (r.constraints.any fun c => c.comparator = Comparator.Any) &&
      decide (1 < r.constraints.length) then
    .error (.InvalidRange "Star constraint must be used alone".toList)
  else if r.constraints.length = 1 then
    .ok r
  else
    let sorted := sortByVersion r.constraints
    match firstDupVersion sorted with
    | some v => .error (.DuplicateVersion (vshow v))
    | none =>
      let unequal := sorted.filter fun c => c.comparator = Comparator.NotEqual
      let others := sorted.filter fun c => ¬ c.comparator = Comparator.NotEqual
      if others = [] then
        .ok ⟨r.versioning_scheme, unequal⟩
      else
        let filtered := passAux [] others
        match firstEqViolation (filtered.map (·.comparator)) with
        | some (a, b) => .error (.InvalidRange (eqViolationMsg a b))
        | none =>
          match firstAltViolation
              ((filtered.map (·.comparator)).filter
                fun c => ¬ c = Comparator.Equal) with
          | some (a, b) => .error (.InvalidRange (altViolationMsg a b))
          | none =>
            .ok ⟨r.versioning_scheme, sortByVersion (filtered ++ unequal)⟩

/-- Strip every whitespace character, modelling
`s.replace(|c: char| c.is_whitespace(), "")` (range.rs line 365). -/
def stripWs (s : List Char) : List Char := s.filter fun c => !c.isWhitespace

/-- `splitn(2, sep)`: split at the first occurrence of `sep`; `none` when
`sep` does not occur (in Rust the collected vector then has fewer than two
parts). -/
def splitFirst (sep : Char) : List Char → Option (List Char × List Char)
  | [] => none
  | c :: rest =>
    if c = sep then some ([], rest)
    else
      match splitFirst sep rest with
      | none => none
      | some (a, b) => some (c :: a, b)

/-- `str::to_lowercase`, modelled characterwise by `Char.toLower`. -/
def toLowerStr (s : List Char) : List Char := s.map Char.toLower

/-- `str::trim`: drop whitespace from both ends. -/
def trimChars (s : List Char) : List Char :=
  ((s.dropWhile Char.isWhitespace).reverse.dropWhile Char.isWhitespace).reverse

/-- `str::trim_matches('|')`: drop `'|'` characters from both ends. -/
def trimPipe (s : List Char) : List Char :=
  ((s.dropWhile fun c => c = '|').reverse.dropWhile fun c => c = '|').reverse

/-- `str::split(sep)`: split at every occurrence of `sep`, keeping empty
segments. -/
def splitChar (sep : Char) : List Char → List (List Char)
  | [] => [[]]
  | c :: rest =>
    if c = sep then [] :: splitChar sep rest
    else
      match splitChar sep rest with
      | [] => [[c]]
      | h :: t => (c :: h) :: t

/-- The externally supplied version capability (the Rust `VT` bound plus the
external `percent_encoding` crate): fallible parse, default value, display,
and the percent decoder used for version substrings containing `'%'`.  The
concrete parsers, orderings and the percent decoder live outside this
repository; they enter the model only through this record. -/
structure VScheme (V : Type) where
  vdisplay : V → List Char
  vparse : List Char → Option V
  vdefault : V
  pdecode : List Char → Option (List Char)

/-- `VersionConstraint::parse` (constraint.rs lines 80-125). -/
def VersionConstraint.parse {V : Type} (VS : VScheme V) (t : List Char) :
    Except VersError (VersionConstraint V) :=
  if t = [] then .error (.InvalidConstraint "Empty constraint".toList)
  else if t = ['*'] then .ok ⟨.Any, VS.vdefault⟩
  else
    let p :=
      if List.isPrefixOf ['>', '='] t then (Comparator.GreaterThanOrEqual, t.drop 2)
      else if List.isPrefixOf ['<', '='] t then (Comparator.LessThanOrEqual, t.drop 2)
      else if List.isPrefixOf ['!', '='] t then (Comparator.NotEqual, t.drop 2)
      else if List.isPrefixOf ['>'] t then (Comparator.GreaterThan, t.drop 1)
      else if List.isPrefixOf ['<'] t then (Comparator.LessThan, t.drop 1)
      else (Comparator.Equal, t)
    let vtext := trimChars p.2
    if vtext = [] ∧ ¬ p.1 = Comparator.Any then
      .error (.InvalidConstraint "Missing version".toList)
    else
      match (if vtext.contains '%' then VS.pdecode vtext else some vtext) with
      | none => .error (.InvalidConstraint ("Invalid URL encoding: ".toList ++ vtext))
      | some vstr =>
        match VS.vparse vstr with
        | none => .error (.InvalidConstraint ("Failed to parse version: ".toList ++ vstr))
        | some v => .ok ⟨p.1, v⟩

/-- The constraint-parsing loop of `from_str` (range.rs lines 417-421):
parse each token, propagating the first failure. -/
def parseAll {V : Type} (VS : VScheme V) :
    List (List Char) → Except VersError (List (VersionConstraint V))
  | [] => .ok []
  | t :: ts =>
    match VersionConstraint.parse VS t with
    | .error e => .error e
    | .ok c =>
      match parseAll VS ts with
      | .error e => .error e
      | .ok cs => .ok (c :: cs)

/-- `impl FromStr for VersionRange` (range.rs lines 360-428). -/
def from_str {V : Type} [LinearOrder V] (VS : VScheme V) (s : List Char) :
    Except VersError (VersionRange V) :=
  let s1 := stripWs s
  match splitFirst ':' s1 with
  | none => .error .InvalidScheme
  | some (scheme, rest) =>
    if ¬ scheme = "vers".toList then .error .InvalidScheme
    else
      match splitFirst '/' rest with
      | none => .error .MissingVersioningScheme
      | some (vsch, rest2) =>
        let versioning_scheme := toLowerStr vsch
        if versioning_scheme = [] then
          .error (.InvalidVersioningScheme versioning_scheme)
        else
          let cstr := trimChars rest2
          if cstr = [] then .error .EmptyConstraints
          else if cstr = ['*'] then
            .ok ⟨versioning_scheme, [⟨.Any, VS.vdefault⟩]⟩
          else
            let toks := (splitChar '|' (trimPipe cstr)).filter fun t => ¬ t = []
            if toks = [] then .error .EmptyConstraints
            else
              match parseAll VS toks with
              | .error e => .error e
              | .ok constraints =>
                normalize_and_validate VS.vdisplay ⟨versioning_scheme, constraints⟩

/-- `DynamicVersionRange::extract_versioning_scheme` (dynamic.rs lines
43-72). -/
def extract_versioning_scheme (s : List Char) : Except VersError (List Char) :=
  let s1 := stripWs s
  match splitFirst ':' s1 with
  | none => .error .InvalidScheme
  | some (scheme, rest) =>
    if ¬ scheme = "vers".toList then .error .InvalidScheme
    else
      match splitFirst '/' rest with
      | none => .error .MissingVersioningScheme
      | some (vsch, _) =>
        let versioning_scheme := toLowerStr vsch
        if versioning_scheme = [] then .error .MissingVersioningScheme
        else .ok versioning_scheme

/-- Canonical text of the FIRST constraint in `Display for VersionRange`
(range.rs lines 434-438): `Any` prints as `*`, `Equal` prints the bare
version, all others print comparator then version. -/
def firstConstraintChars {V : Type} (VS : VScheme V)
    (c : VersionConstraint V) : List Char :=
  match c.comparator with
  | .Any => ['*']
  | .Equal => VS.vdisplay c.version
  | _ => compChars c.comparator ++ VS.vdisplay c.version

/-- Canonical text of each LATER constraint in `Display for VersionRange`
(range.rs lines 440-445): `Equal` prints the bare version, all others
(including `Any`) print comparator then version. -/
def restConstraintChars {V : Type} (VS : VScheme V)
    (c : VersionConstraint V) : List Char :=
  match c.comparator with
  | .Equal => VS.vdisplay c.version
  | _ => compChars c.comparator ++ VS.vdisplay c.version

/-- `impl Display for VersionRange` (range.rs lines 430-449).  The Rust code
unconditionally indexes `self.constraints[0]`; on an empty constraint vector
that access panics, modelled here by `none`. -/
def displayChars {V : Type} (VS : VScheme V) (r : VersionRange V) :
    Option (List Char) :=
  match r.constraints with
  | [] => none
  | c0 :: rest =>
    some ("vers:".toList ++ r.versioning_scheme ++ ['/'] ++
      firstConstraintChars VS c0 ++
      (rest.map fun c => '|' :: restConstraintChars VS c).flatten)

/-- Spec section 3 invariant 5 as a relation on adjacent comparators:
an `=` may only be immediately followed by `=`, `>` or `>=`. -/
def EqRulePairs (a b : Comparator) : Prop :=
  a = Comparator.Equal → (b = Comparator.Equal ∨ isLowerB b = true)

instance : DecidableRel EqRulePairs := fun a b =>
  inferInstanceAs (Decidable (_ → _))

/-- Spec section 3 invariant 6 as a relation on adjacent bound comparators:
upper bounds are followed by lower bounds and vice versa. -/
def AltRulePairs (a b : Comparator) : Prop :=
  (isUpperB a = true → isLowerB b = true) ∧ (isLowerB a = true → isUpperB b = true)

instance : DecidableRel AltRulePairs := fun a b =>
  inferInstanceAs (Decidable (_ ∧ _))

/-- The validity invariants of spec section 3 for a `Range` considered
valid after normalize-and-validate: non-empty constraints; `Any` only as the
sole constraint; pairwise distinct versions; ascending version order;
ignoring `!=`, an `=` is followed only by `=`, `>`, `>=` or nothing; and
ignoring `=` and `!=`, bound comparators strictly alternate between the
upper-bound and lower-bound families. -/
def Valid {V : Type} [LinearOrder V] (r : VersionRange V) : Prop :=
  r.constraints ≠ [] ∧
  (∀ c ∈ r.constraints, c.comparator = Comparator.Any → r.constraints.length = 1) ∧
  r.constraints.Pairwise (fun a b => a.version ≠ b.version) ∧
  r.constraints.Pairwise vle ∧
  List.Chain' EqRulePairs
    ((r.constraints.map (·.comparator)).filter fun c => ¬ c = Comparator.NotEqual) ∧
  List.Chain' AltRulePairs
    ((r.constraints.map (·.comparator)).filter fun c => isBoundB c)

/-- Decimal digits of a natural number, most significant first. -/
def natToChars (n : Nat) : List Char := Nat.toDigits 10 n

/-- Accumulating decimal parser over a digit list. -/
def charsToNatCore : List Char → Nat → Option Nat
  | [], acc => some acc
  | c :: t, acc =>
    if c.isDigit then charsToNatCore t (acc * 10 + (c.toNat - 48)) else none

/-- Parse a decimal numeral, rejecting the empty string and leading zeros
(as the external semver crate's numeric-identifier grammar does). -/
def charsToNat (l : List Char) : Option Nat :=
  match l with
  | [] => none
  | ['0'] => some 0
  | '0' :: _ :: _ => none
  | _ => charsToNatCore l 0

/-- Concrete version type for witnesses: natural numbers displayed in
decimal.  Any linearly ordered, parseable, displayable type instantiates the
external version capability; this is the simplest one. -/
def NatVS : VScheme Nat := ⟨natToChars, charsToNat, 0, fun _ => none⟩

/-- Concrete `major.minor.patch` triples ordered lexicographically, as the
external semver crate orders plain versions. -/
abbrev SemVer3 : Type := Lex (Nat × Lex (Nat × Nat))

/-- Build a `SemVer3` from its three components. -/
def sv3 (a b c : Nat) : SemVer3 := toLex (a, toLex (b, c))

/-- Display of a plain `major.minor.patch` version, as the external semver
crate prints it. -/
def sv3Display (v : SemVer3) : List Char :=
  natToChars (ofLex v).1 ++ ['.'] ++ natToChars (ofLex (ofLex v).2).1 ++
    ['.'] ++ natToChars (ofLex (ofLex v).2).2

/-- Parser for plain `major.minor.patch` versions.  Models the external
semver crate's `Version::parse` on inputs without prerelease or build
metadata (the only versions any claim exercises): exactly three dot-separated
decimal numerals without leading zeros. -/
def sv3Parse (t : List Char) : Option SemVer3 :=
  match splitChar '.' t with
  | [a, b, c] =>
    match charsToNat a, charsToNat b, charsToNat c with
    | some x, some y, some z => some (sv3 x y z)
    | _, _, _ => none
  | _ => none

/-- The concrete version capability used for the `npm`/`semver` schemes.
The percent decoder (external `percent_encoding` crate) is unexercised by
every claim input, none of which contains `'%'`; it is modelled by an
arbitrary stand-in. -/
def SemVS : VScheme SemVer3 := ⟨sv3Display, sv3Parse, sv3 0 0 0, fun _ => none⟩

/-- Structurally recursive decision procedure for `List.Chain'`, used so
that concrete `Valid` instances reduce inside the kernel. -/
def decChain {α : Type} (R : α → α → Prop) [DecidableRel R] :
    (l : List α) → Decidable (List.Chain' R l)
  | [] => isTrue (by simp)
  | [_] => isTrue (by simp)
  | a :: b :: t =>
    match decChain R (b :: t) with
    | isTrue ht =>
      if h : R a b then isTrue (List.chain'_cons.mpr ⟨h, ht⟩)
      else isFalse fun hc => h (List.chain'_cons.mp hc).1
    | isFalse ht => isFalse fun hc => ht (List.chain'_cons.mp hc).2

instance (priority := high) {α : Type} (R : α → α → Prop) [DecidableRel R]
    (l : List α) : Decidable (List.Chain' R l) :=
  decChain R l

instance {V : Type} [LinearOrder V] (r : VersionRange V) : Decidable (Valid r) :=
  if h : (r.constraints ≠ [] ∧
     (∀ c ∈ r.constraints, c.comparator = Comparator.Any →
        r.constraints.length = 1) ∧
     r.constraints.Pairwise
       (fun a b : VersionConstraint V => a.version ≠ b.version) ∧
     r.constraints.Pairwise vle ∧
     List.Chain' EqRulePairs
       ((r.constraints.map
         fun c : VersionConstraint V => c.comparator).filter
           fun c => ¬ c = Comparator.NotEqual) ∧
     List.Chain' AltRulePairs
       ((r.constraints.map
         fun c : VersionConstraint V => c.comparator).filter
           fun c => isBoundB c))
  then isTrue h else isFalse h

instance {ε α : Type} [DecidableEq ε] [DecidableEq α] : DecidableEq (Except ε α) :=
  fun a b =>
    match a, b with
    | .ok x, .ok y =>
      if h : x = y then isTrue (by rw [h]) else isFalse (by simpa using h)
    | .error x, .error y =>
      if h : x = y then isTrue (by rw [h]) else isFalse (by simpa using h)
    | .ok _, .error _ => isFalse (by simp)
    | .error _, .ok _ => isFalse (by simp)

instance : DecidableEq SemVer3 := inferInstanceAs (DecidableEq (Nat × Nat × Nat))


/-- Strict version order on constraints, used to state that a sorted
duplicate-free constraint list is strictly increasing. -/
def vlt {V : Type} [LinearOrder V] (a b : VersionConstraint V) : Prop :=
  a.version < b.version

instance {V : Type} [LinearOrder V] : IsAntisymm (VersionConstraint V) vlt :=
  ⟨fun _ _ h1 h2 => absurd h2 (lt_asymm h1)⟩

/-- Adjacent constraints on which neither family of redundancy rules fires;
the pass leaves such pairs untouched. -/
def NoFire {V : Type} (a b : VersionConstraint V) : Prop :=
  lowRedundant a.comparator b.comparator = false ∧
  upRedundant a.comparator b.comparator = false

/-- Is the first character (if any) outside the comparator-prefix alphabet
of the constraint grammar? -/
def headNotOp : List Char → Bool
  | [] => true
  | c :: _ => !(c = '>' || c = '<' || c = '=' || c = '!')

/-- A well-behaved displayed version token: non-empty, not the reserved
`*`, free of whitespace, `|` and `%`, and not beginning with a comparator
character. -/
def TokOk (t : List Char) : Prop :=
  t ≠ [] ∧ t ≠ ['*'] ∧
  (∀ ch ∈ t, ¬ ch.isWhitespace ∧ ¬ ch = '|' ∧ ¬ ch = '%') ∧
  headNotOp t = true

/-- A well-behaved scheme name: non-empty, fixed by lower-casing, and free
of whitespace and `/`. -/
def SchemeOk (s : List Char) : Prop :=
  s ≠ [] ∧ toLowerStr s = s ∧ ∀ ch ∈ s, ¬ ch.isWhitespace ∧ ¬ ch = '/'

instance (t : List Char) : Decidable (TokOk t) :=
  inferInstanceAs (Decidable (t ≠ [] ∧ t ≠ ['*'] ∧
    (∀ ch ∈ t, ¬ ch.isWhitespace ∧ ¬ ch = '|' ∧ ¬ ch = '%') ∧
    headNotOp t = true))

instance (s : List Char) : Decidable (SchemeOk s) :=
  inferInstanceAs (Decidable (s ≠ [] ∧ toLowerStr s = s ∧
    ∀ ch ∈ s, ¬ ch.isWhitespace ∧ ¬ ch = '/'))

/-! ## Theorems -/

/-- C9: the generic `contains` never produces the `Err` variant: for every
range (normalized or not) and every version, some boolean is returned under
`Ok`. -/
theorem contains_always_ok {V : Type} [LinearOrder V] (r : VersionRange V)
    (version : V) : ∃ b, r.contains version = .ok b := by
  unfold VersionRange.contains
  split
  · exact ⟨true, rfl⟩
  · split
    · next b _ => exact ⟨b, rfl⟩
    · split
      · exact ⟨true, rfl⟩
      · exact ⟨_, rfl⟩

/-- C10: `Display` unconditionally indexes the first constraint, so it
panics (modelled as `none`) exactly on ranges built with an empty constraint
vector — a state reachable through `VersionRange::new`, which performs no
validation — and formats successfully whenever the constraint sequence is
non-empty. -/
theorem display_total_iff_nonempty {V : Type} (VS : VScheme V)
    (scheme : List Char) (constraints : List (VersionConstraint V)) :
    (constraints = [] →
      displayChars VS (VersionRange.new scheme constraints) = none) ∧
    (constraints ≠ [] →
      ∃ s, displayChars VS (VersionRange.new scheme constraints) = some s) := by
  constructor
  · intro h
    subst h
    rfl
  · intro h
    match constraints with
    | [] => exact absurd rfl h
    | c :: rest => exact ⟨_, rfl⟩

/-- Witness for `display_total_iff_nonempty` at a concrete empty and a
concrete non-empty range. -/
theorem display_total_iff_nonempty_witness :
    displayChars NatVS (VersionRange.new "npm".toList []) = none ∧
    ∃ s, displayChars NatVS
      (VersionRange.new "npm".toList [⟨Comparator.Equal, (1 : Nat)⟩]) = some s :=
  ⟨(display_total_iff_nonempty NatVS "npm".toList []).1 rfl,
   (display_total_iff_nonempty NatVS "npm".toList
      [⟨Comparator.Equal, (1 : Nat)⟩]).2 (by simp)⟩

/-- C7: whenever an `Any` constraint coexists with at least one other
constraint, `normalize_and_validate` fails with the `InvalidRange` error
kind (star exclusivity); consequently a parsed specifier mixing `*` with
another constraint, such as `vers:npm/*|1.2.3`, fails the same way. -/
theorem star_exclusivity :
    (∀ {V : Type} [LinearOrder V] (vshow : V → List Char) (r : VersionRange V),
      (∃ c ∈ r.constraints, c.comparator = Comparator.Any) →
      2 ≤ r.constraints.length →
      normalize_and_validate vshow r =
        .error (.InvalidRange "Star constraint must be used alone".toList)) ∧
    from_str SemVS "vers:npm/*|1.2.3".toList =
      .error (.InvalidRange "Star constraint must be used alone".toList) := by
  constructor
  · intro V _ vshow r hstar hlen
    unfold normalize_and_validate
    rw [if_neg, if_pos]
    · obtain ⟨c, hc, hany⟩ := hstar
      simp only [Bool.and_eq_true, List.any_eq_true, decide_eq_true_eq]
      exact ⟨⟨c, hc, by simp [hany]⟩, by omega⟩
    · intro h
      rw [h] at hlen
      simp at hlen
  · decide

/-- Witness for `star_exclusivity` at a concrete two-constraint range. -/
theorem star_exclusivity_witness :
    normalize_and_validate NatVS.vdisplay
      (VersionRange.new "npm".toList
        [⟨Comparator.Any, 0⟩, ⟨Comparator.Equal, (1 : Nat)⟩]) =
      .error (.InvalidRange "Star constraint must be used alone".toList) :=
  star_exclusivity.1 NatVS.vdisplay _
    ⟨⟨Comparator.Any, 0⟩, by simp [VersionRange.new], rfl⟩
    (by simp [VersionRange.new])

/-- C3 (amended): in the redundancy-elimination pass, when the current
comparator is `>`/`>=` and the next is `>`/`>=`/`=`, the NEXT (larger-version)
constraint is dropped and the current (smaller-version) one is kept and
re-tested against its new successor. -/
theorem pass_keeps_smaller_lower {V : Type} (f : List (VersionConstraint V))
    (cur nxt : VersionConstraint V) (rest : List (VersionConstraint V))
    (h1 : isLowerB cur.comparator = true)
    (h2 : isLowerB nxt.comparator = true ∨ nxt.comparator = Comparator.Equal) :
    passAux f (cur :: nxt :: rest) = passAux f (cur :: rest) := by
  have hc : lowRedundant cur.comparator nxt.comparator = true := by
    rcases h2 with h2 | h2 <;> simp [lowRedundant, h1, h2]
  rw [passAux]
  rw [if_pos hc]

/-- Witness for `pass_keeps_smaller_lower`: on `[> 1, > 2]` the pass yields
`[> 1]`, the smaller lower bound. -/
theorem pass_keeps_smaller_lower_witness :
    passAux [] [⟨Comparator.GreaterThan, (1 : Nat)⟩, ⟨Comparator.GreaterThan, 2⟩] =
      passAux [] [⟨Comparator.GreaterThan, (1 : Nat)⟩] :=
  pass_keeps_smaller_lower [] ⟨Comparator.GreaterThan, 1⟩ ⟨Comparator.GreaterThan, 2⟩ []
    rfl (Or.inl rfl)

set_option maxRecDepth 8000 in
/-- C3 (counterexample): contrary to the claim that the current
(smaller-version) constraint is dropped and the larger kept,
normalizing `[> 1, > 2]` keeps the smaller constraint `> 1`. -/
theorem pass_drops_larger_counterexample :
    normalize_and_validate NatVS.vdisplay
      (VersionRange.new "npm".toList
        [⟨Comparator.GreaterThan, (1 : Nat)⟩, ⟨Comparator.GreaterThan, 2⟩]) =
      .ok (VersionRange.new "npm".toList [⟨Comparator.GreaterThan, (1 : Nat)⟩]) ∧
    ¬ normalize_and_validate NatVS.vdisplay
      (VersionRange.new "npm".toList
        [⟨Comparator.GreaterThan, (1 : Nat)⟩, ⟨Comparator.GreaterThan, 2⟩]) =
      .ok (VersionRange.new "npm".toList [⟨Comparator.GreaterThan, (2 : Nat)⟩]) := by
  have h : normalize_and_validate NatVS.vdisplay
      (VersionRange.new "npm".toList
        [⟨Comparator.GreaterThan, (1 : Nat)⟩, ⟨Comparator.GreaterThan, 2⟩]) =
      .ok (VersionRange.new "npm".toList [⟨Comparator.GreaterThan, (1 : Nat)⟩]) := by
    simp +decide [normalize_and_validate, sortByVersion, List.insertionSort,
      List.orderedInsert, passAux.eq_1, passAux.eq_2, passAux.eq_3,
      lowRedundant, upRedundant, firstDupVersion, firstEqViolation,
      firstAltViolation, VersionRange.new, vle]
  exact ⟨h, by rw [h]; simp [VersionRange.new]⟩

set_option maxRecDepth 8000 in
/-- C4: the three redundancy-collapse examples of the spec, end to end
through parse and display. -/
theorem redundancy_collapse_examples :
    (from_str SemVS "vers:npm/1.2.3|<2.0.0".toList).map (displayChars SemVS) =
      .ok (some "vers:npm/<2.0.0".toList) ∧
    (from_str SemVS "vers:npm/>1.0.0|>2.0.0".toList).map (displayChars SemVS) =
      .ok (some "vers:npm/>1.0.0".toList) ∧
    (from_str SemVS "vers:npm/<1.0.0|<2.0.0".toList).map (displayChars SemVS) =
      .ok (some "vers:npm/<2.0.0".toList) := by
  refine ⟨?_, ?_, ?_⟩ <;>
    simp +decide [from_str, stripWs, splitFirst, toLowerStr, trimChars, trimPipe,
      splitChar, parseAll, VersionConstraint.parse, normalize_and_validate,
      sortByVersion, List.insertionSort, List.orderedInsert,
      passAux.eq_1, passAux.eq_2, passAux.eq_3, lowRedundant, upRedundant,
      firstDupVersion, firstEqViolation, firstAltViolation, displayChars,
      firstConstraintChars, restConstraintChars, SemVS, sv3Parse, sv3Display,
      sv3, charsToNat, charsToNatCore, natToChars, Nat.toDigits,
      Nat.toDigitsCore, vle]

/-- C8: on `vers:/1.2.3` (empty scheme segment) the generic `from_str`
returns `InvalidVersioningScheme("")` — a variant `error.rs` does not even
declare, contradicting the crate's own `test_missing_scheme`, which expects
`MissingVersioningScheme` — while the dynamic
`extract_versioning_scheme` returns `MissingVersioningScheme`. -/
theorem empty_scheme_errors :
    from_str SemVS "vers:/1.2.3".toList = .error (.InvalidVersioningScheme []) ∧
    extract_versioning_scheme "vers:/1.2.3".toList =
      .error .MissingVersioningScheme := by
  constructor
  · decide
  · decide

/-- `sortByVersion` permutes its input. -/
theorem perm_sortByVersion {V : Type} [LinearOrder V]
    (l : List (VersionConstraint V)) : List.Perm (sortByVersion l) l :=
  List.perm_insertionSort vle l

/-- `sortByVersion` sorts by version. -/
theorem sorted_sortByVersion {V : Type} [LinearOrder V]
    (l : List (VersionConstraint V)) : List.Sorted vle (sortByVersion l) :=
  List.sorted_insertionSort vle l

/-- On a version-sorted list, the adjacent duplicate scan finds nothing
exactly when all versions are pairwise distinct. -/
theorem firstDup_eq_none_iff {V : Type} [LinearOrder V] :
    ∀ {l : List (VersionConstraint V)}, List.Sorted vle l →
      (firstDupVersion l = none ↔
        l.Pairwise fun a b => a.version ≠ b.version)
  | [], _ => by simp [firstDupVersion]
  | [a], _ => by simp [firstDupVersion]
  | a :: b :: t, hs => by
    rw [firstDupVersion]
    constructor
    · intro h
      by_cases he : a.version = b.version
      · rw [if_pos he] at h
        exact absurd h (by simp)
      · rw [if_neg he] at h
        have ht := (firstDup_eq_none_iff hs.tail).mp h
        refine List.pairwise_cons.mpr ⟨?_, ht⟩
        intro c hc
        rcases List.mem_cons.mp hc with hc | hc
        · rw [hc]
          exact he
        · have h1 : a.version ≤ b.version :=
            List.rel_of_sorted_cons hs b (by simp)
          have h2 : b.version ≤ c.version :=
            List.rel_of_sorted_cons hs.tail c hc
          exact ne_of_lt (lt_of_lt_of_le (lt_of_le_of_ne h1 he) h2)
    · intro h
      have hab : a.version ≠ b.version :=
        (List.pairwise_cons.mp h).1 b (by simp)
      rw [if_neg hab]
      exact (firstDup_eq_none_iff hs.tail).mpr (List.pairwise_cons.mp h).2

/-- The version returned by the duplicate scan really occurs at least
twice. -/
theorem firstDup_some_count {V : Type} [LinearOrder V] :
    ∀ {l : List (VersionConstraint V)} {w : V}, firstDupVersion l = some w →
      2 ≤ l.countP fun c => decide (c.version = w)
  | [], _, h => by simp [firstDupVersion] at h
  | [a], _, h => by simp [firstDupVersion] at h
  | a :: b :: t, w, h => by
    rw [firstDupVersion] at h
    by_cases he : a.version = b.version
    · rw [if_pos he] at h
      have hw : b.version = w := by injection h
      have haw : a.version = w := he.trans hw
      simp [List.countP_cons, haw, hw]
    · rw [if_neg he] at h
      have := firstDup_some_count h
      simp only [List.countP_cons] at this ⊢
      omega
/-- C6 (amended): any constraint sequence of length at least two, free of
`Any`, and containing two equal versions is rejected by
`normalize_and_validate` with `DuplicateVersion` carrying a version that
occurs at least twice; in particular `vers:npm/1.2.3|1.2.3` fails with
`DuplicateVersion("1.2.3")`. -/
theorem duplicate_version_rejected :
    (∀ {V : Type} [LinearOrder V] (vshow : V → List Char) (r : VersionRange V),
      2 ≤ r.constraints.length →
      (∀ c ∈ r.constraints, ¬ c.comparator = Comparator.Any) →
      ¬ r.constraints.Pairwise (fun a b => a.version ≠ b.version) →
      ∃ w, normalize_and_validate vshow r = .error (.DuplicateVersion (vshow w)) ∧
        2 ≤ r.constraints.countP fun c => decide (c.version = w)) ∧
    from_str SemVS "vers:npm/1.2.3|1.2.3".toList =
      .error (.DuplicateVersion "1.2.3".toList) := by
  constructor
  · intro V _ vshow r hlen hnoany hdup
    have hsorted := sorted_sortByVersion r.constraints
    have hperm := perm_sortByVersion r.constraints
    have hdup2 : ¬ (sortByVersion r.constraints).Pairwise
        fun a b => a.version ≠ b.version := by
      intro hp
      exact hdup ((hperm.pairwise_iff fun h => Ne.symm h).mp hp)
    obtain ⟨w, hw⟩ : ∃ w, firstDupVersion (sortByVersion r.constraints) = some w := by
      rcases h : firstDupVersion (sortByVersion r.constraints) with _ | w
      · exact absurd ((firstDup_eq_none_iff hsorted).mp h) hdup2
      · exact ⟨w, rfl⟩
    refine ⟨w, ?_, ?_⟩
    · unfold normalize_and_validate
      rw [if_neg, if_neg, if_neg]
      · simp only [hw]
      · omega
      · simp only [Bool.and_eq_true, List.any_eq_true, decide_eq_true_eq,
          not_and]
        intro ⟨c, hc, hany⟩
        exact absurd hany (hnoany c hc)
      · intro h
        rw [h] at hlen
        simp at hlen
    · have := firstDup_some_count hw
      rwa [hperm.countP_eq] at this
  · decide

/-- Witness for `duplicate_version_rejected` on the concrete range
`= 1 | != 1`, whose duplicate involves a `!=` constraint. -/
theorem duplicate_version_rejected_witness :
    ∃ w, normalize_and_validate NatVS.vdisplay
      (VersionRange.new "npm".toList
        [⟨Comparator.Equal, (1 : Nat)⟩, ⟨Comparator.NotEqual, 1⟩]) =
      .error (.DuplicateVersion (NatVS.vdisplay w)) ∧
    2 ≤ (VersionRange.new "npm".toList
        [⟨Comparator.Equal, (1 : Nat)⟩, ⟨Comparator.NotEqual, 1⟩]).constraints.countP
      fun c => decide (c.version = w) :=
  duplicate_version_rejected.1 NatVS.vdisplay _ (by simp [VersionRange.new])
    (by decide) (by decide)

/-- C6 (counterexample): a two-constraint sequence whose constraints carry
equal versions but one of which is `Any` is rejected by the star-exclusivity
check, with `InvalidRange` rather than `DuplicateVersion`. -/
theorem duplicate_with_star_counterexample :
    normalize_and_validate NatVS.vdisplay
      (VersionRange.new "npm".toList
        [⟨Comparator.Any, (0 : Nat)⟩, ⟨Comparator.Equal, 0⟩]) =
      .error (.InvalidRange "Star constraint must be used alone".toList) ∧
    ¬ normalize_and_validate NatVS.vdisplay
      (VersionRange.new "npm".toList
        [⟨Comparator.Any, (0 : Nat)⟩, ⟨Comparator.Equal, 0⟩]) =
      .error (.DuplicateVersion (NatVS.vdisplay 0)) := by
  constructor
  · decide
  · decide

/-- On a list with pairwise-distinct versions, the equality scan of
`contains` is determined by the two existential tests of the spec: a `!=`
match gives `some false`, an `=`/`>=`/`<=` match gives `some true`, and
otherwise the scan falls through. -/
theorem scanEq_characterization {V : Type} [LinearOrder V] :
    ∀ {l : List (VersionConstraint V)} (v : V),
      l.Pairwise (fun a b => a.version ≠ b.version) →
      scanEq l v =
        (if l.any (fun c =>
            c.comparator = Comparator.NotEqual && c.version = v) then
          some false
        else if l.any (fun c =>
            (c.comparator = Comparator.Equal ||
             c.comparator = Comparator.GreaterThanOrEqual ||
             c.comparator = Comparator.LessThanOrEqual) && c.version = v) then
          some true
        else none)
  | [], v, _ => by simp [scanEq]
  | ⟨cc, cv⟩ :: t, v, hp => by
    have htail := (List.pairwise_cons.mp hp).2
    by_cases hv : v = cv
    · subst hv
      have hnone : ∀ d ∈ t, ¬ d.version = v := by
        intro d hd he
        exact (List.pairwise_cons.mp hp).1 d hd he.symm
      have hNE : (t.any fun c =>
          c.comparator = Comparator.NotEqual && c.version = v) = false := by
        rw [List.any_eq_false]
        intro d hd
        simp [hnone d hd]
      have hEQ : (t.any fun c =>
          (c.comparator = Comparator.Equal ||
           c.comparator = Comparator.GreaterThanOrEqual ||
           c.comparator = Comparator.LessThanOrEqual) && c.version = v) = false := by
        rw [List.any_eq_false]
        intro d hd
        simp [hnone d hd]
      cases cc <;>
        simp [scanEq, hNE, hEQ, scanEq_characterization v htail]
    · have hv2 : ¬ cv = v := fun h => hv h.symm
      cases cc <;>
        simp [scanEq, hv, hv2, scanEq_characterization v htail]

/-- The bound loop of `contains` with the `first` flag lowered: it tests the
open-ended-above rule on the last constraint and the strict-between rule on
each adjacent pair. -/
theorem rangeLoop_false_eq {V : Type} [LinearOrder V] :
    ∀ (bs : List (VersionConstraint V)) (v : V),
      rangeLoop v bs false =
        ((match bs.getLast? with
          | some b => isLowerB b.comparator && decide (b.version < v)
          | none => false) ||
         adjacentPairHit v bs)
  | [], v => by simp [rangeLoop, adjacentPairHit]
  | [c], v => by
    simp [rangeLoop, adjacentPairHit]
  | c :: n :: t, v => by
    rw [rangeLoop]
    have h1 : (c :: n :: t).getLast? = (n :: t).getLast? := by
      rw [List.getLast?_cons_cons]
    rw [h1, adjacentPairHit]
    simp only [Bool.false_and, if_false, List.isEmpty_cons, Bool.false_or]
    by_cases hpair : (isLowerB c.comparator && decide (c.version < v) &&
        isUpperB n.comparator && decide (v < n.version)) = true
    · simp [hpair, rangeLoop_false_eq (n :: t) v]
    · simp only [hpair, if_false]
      rw [rangeLoop_false_eq (n :: t) v]
      cases hl : (n :: t).getLast? with
      | none => simp at hl
      | some b =>
        simp only [Bool.eq_false_iff] at hpair
        cases hb : (isLowerB b.comparator && decide (b.version < v)) <;>
          cases hA : adjacentPairHit v (n :: t) <;>
            simp [hb, hA, hpair]

/-- The bound loop of `contains` with the `first` flag raised additionally
tests the open-ended-below rule on the first constraint. -/
theorem rangeLoop_true_eq {V : Type} [LinearOrder V]
    (bs : List (VersionConstraint V)) (v : V) :
    rangeLoop v bs true =
      ((match bs with
        | b :: _ => isUpperB b.comparator && decide (v < b.version)
        | [] => false) ||
       rangeLoop v bs false) := by
  cases bs with
  | nil => simp [rangeLoop]
  | cons c rest =>
    by_cases hh : (isUpperB c.comparator && decide (v < c.version)) = true
    · simp [rangeLoop, hh]
    · simp only [Bool.eq_false_iff] at hh
      cases h1 : isUpperB c.comparator <;> cases h2 : decide (v < c.version) <;>
        simp [rangeLoop, h1, h2]

/-- C1: for every normalized range (one satisfying the spec section 3
invariants) and every version, `contains` returns `Ok` of exactly the
reference containment decision of spec section 4.4. -/
theorem contains_matches_spec {V : Type} [LinearOrder V] (r : VersionRange V)
    (h : Valid r) (v : V) : r.contains v = .ok (specContains r v) := by
  obtain ⟨hne, hany, hdist, hsort, heqr, haltr⟩ := h
  unfold VersionRange.contains specContains
  by_cases h0 : soleAnyB r.constraints = true
  · simp [h0]
  · rw [if_neg h0, if_neg h0, scanEq_characterization v hdist]
    by_cases hNE : (r.constraints.any fun c =>
        c.comparator = Comparator.NotEqual && c.version = v) = true
    · simp [hNE]
    · by_cases hEQ : (r.constraints.any fun c =>
          (c.comparator = Comparator.Equal ||
           c.comparator = Comparator.GreaterThanOrEqual ||
           c.comparator = Comparator.LessThanOrEqual) && c.version = v) = true
      · simp [hNE, hEQ]
      · by_cases hall : (r.constraints.all fun c =>
            c.comparator = Comparator.NotEqual) = true
        · simp [hNE, hEQ, hall]
        · simp only [hNE, hEQ, hall, if_false, Bool.false_eq_true]
          rw [rangeLoop_true_eq, rangeLoop_false_eq, Bool.or_assoc]

/-- Witness for `contains_matches_spec` on the concrete normalized range
`>= 10 | != 15 | < 20` at version 12. -/
theorem contains_matches_spec_witness :
    VersionRange.contains
      (VersionRange.new "npm".toList
        [⟨Comparator.GreaterThanOrEqual, (10 : Nat)⟩,
         ⟨Comparator.NotEqual, 15⟩, ⟨Comparator.LessThan, 20⟩]) 12 =
      .ok (specContains
        (VersionRange.new "npm".toList
          [⟨Comparator.GreaterThanOrEqual, (10 : Nat)⟩,
           ⟨Comparator.NotEqual, 15⟩, ⟨Comparator.LessThan, 20⟩]) 12) :=
  contains_matches_spec _ (by decide) 12

/-- In a `Chain'`, the last element of `dropLast` is related to the last
element. -/
theorem chain'_last_pair {α : Type} {R : α → α → Prop} :
    ∀ {l : List α}, List.Chain' R l →
      ∀ x ∈ l.dropLast.getLast?, ∀ y ∈ l.getLast?, R x y
  | [], _ => by simp
  | [a], _ => by simp
  | a :: b :: t, h => by
    intro x hx y hy
    cases t with
    | nil =>
      simp only [List.dropLast, List.getLast?] at hx hy
      simp at hx hy
      subst hx
      subst hy
      exact (List.chain'_cons.mp h).1
    | cons c t2 =>
      have hd : (a :: b :: c :: t2).dropLast = a :: b :: (c :: t2).dropLast := by
        simp [List.dropLast]
      rw [hd, List.getLast?_cons_cons] at hx
      rw [List.getLast?_cons_cons] at hy
      have hd2 : (b :: (c :: t2).dropLast) = (b :: c :: t2).dropLast := by
        simp [List.dropLast]
      rw [hd2] at hx
      exact chain'_last_pair (List.chain'_cons.mp h).2 x hx y hy

/-- The pass never fabricates constraints: its output is a sublist of the
accepted prefix followed by the remaining stream. -/
theorem passAux_sublist {V : Type} (f s : List (VersionConstraint V)) :
    (passAux f s).Sublist (f ++ s) := by
  induction f, s using passAux.induct with
  | case1 f =>
    rw [passAux, List.append_nil]
  | case2 f c =>
    rw [passAux]
  | case3 f c n rest h ih =>
    rw [passAux, if_pos h]
    exact ih.trans (List.Sublist.append_left
      (List.Sublist.cons₂ _ (List.Sublist.cons _ (List.Sublist.refl _))) _)
  | case4 c n rest h1 h2 ih =>
    rw [passAux, if_neg h1, if_pos h2, dif_pos rfl]
    exact ih.trans (List.Sublist.cons _ (List.Sublist.refl _))
  | case5 f c n rest h1 h2 hne ih =>
    rw [passAux, if_neg h1, if_pos h2, dif_neg hne]
    refine ih.trans ?_
    rw [List.append_cons f.dropLast, List.dropLast_append_getLast hne]
    exact List.Sublist.append_left
      (List.Sublist.cons _ (List.Sublist.refl _)) _
  | case6 c n rest h1 h2 ih =>
    rw [passAux, if_neg h1, if_neg h2, dif_pos rfl]
    simpa using ih
  | case7 f c n rest h1 h2 hne h ih =>
    rw [passAux, if_neg h1, if_neg h2, dif_neg hne, if_pos h]
    exact ih.trans (List.Sublist.append_left
      (List.Sublist.cons _ (List.Sublist.refl _)) _)
  | case8 f c n rest h1 h2 hne h3 h ih =>
    rw [passAux, if_neg h1, if_neg h2, dif_neg hne, if_neg h3, if_pos h]
    refine ih.trans ?_
    rw [List.append_assoc]
    conv_rhs => rw [← List.dropLast_append_getLast hne, List.append_assoc]
    exact List.Sublist.append_left (List.Sublist.cons _ (List.Sublist.refl _)) _
  | case9 f c n rest h1 h2 hne h3 h ih =>
    rw [passAux, if_neg h1, if_neg h2, dif_neg hne, if_neg h3, if_neg h]
    refine ih.trans ?_
    rw [List.append_assoc]
    exact List.Sublist.refl _

/-- The pass never empties a non-empty state. -/
theorem passAux_ne_nil {V : Type} (f s : List (VersionConstraint V)) :
    f ++ s ≠ [] → passAux f s ≠ [] := by
  induction f, s using passAux.induct with
  | case1 f =>
    intro h
    rw [passAux]
    simpa using h
  | case2 f c =>
    intro _
    rw [passAux]
    simp
  | case3 f c n rest h ih =>
    intro _
    rw [passAux, if_pos h]
    exact ih (by simp)
  | case4 c n rest h1 h2 ih =>
    intro _
    rw [passAux, if_neg h1, if_pos h2, dif_pos rfl]
    exact ih (by simp)
  | case5 f c n rest h1 h2 hne ih =>
    intro _
    rw [passAux, if_neg h1, if_pos h2, dif_neg hne]
    exact ih (by simp)
  | case6 c n rest h1 h2 ih =>
    intro _
    rw [passAux, if_neg h1, if_neg h2, dif_pos rfl]
    exact ih (by simp)
  | case7 f c n rest h1 h2 hne h ih =>
    intro _
    rw [passAux, if_neg h1, if_neg h2, dif_neg hne, if_pos h]
    exact ih (by simp [hne])
  | case8 f c n rest h1 h2 hne h3 h ih =>
    intro _
    rw [passAux, if_neg h1, if_neg h2, dif_neg hne, if_neg h3, if_pos h]
    exact ih (by simp)
  | case9 f c n rest h1 h2 hne h3 h ih =>
    intro _
    rw [passAux, if_neg h1, if_neg h2, dif_neg hne, if_neg h3, if_neg h]
    exact ih (by simp)

/-- Soundness of the pass: starting from a no-fire accepted prefix whose
boundary with the stream is also no-fire, the output contains no adjacent
pair on which either redundancy rule fires. -/
theorem passAux_nofire {V : Type} (f s : List (VersionConstraint V)) :
    List.Chain' NoFire f →
    (∀ p ∈ f.getLast?, ∀ c ∈ s.head?, NoFire p c) →
    List.Chain' NoFire (passAux f s) := by
  induction f, s using passAux.induct with
  | case1 f =>
    intro hf _
    rw [passAux]
    exact hf
  | case2 f c =>
    intro hf hb
    rw [passAux]
    exact List.chain'_append.mpr ⟨hf, List.chain'_singleton c,
      fun x hx y hy => by
        simp at hy
        subst hy
        exact hb x hx c rfl⟩
  | case3 f c n rest h ih =>
    intro hf hb
    rw [passAux, if_pos h]
    exact ih hf fun p hp d hd => by
      simp at hd
      subst hd
      exact hb p hp c rfl
  | case4 c n rest h1 h2 ih =>
    intro hf _
    rw [passAux, if_neg h1, if_pos h2, dif_pos rfl]
    exact ih hf (by simp)
  | case5 f c n rest h1 h2 hne ih =>
    intro hf hb
    rw [passAux, if_neg h1, if_pos h2, dif_neg hne]
    have hfa := hf
    rw [← List.dropLast_append_getLast hne] at hfa
    refine ih (List.Chain'.left_of_append hfa) ?_
    intro p hp d hd
    simp at hd
    subst hd
    exact chain'_last_pair hf p hp (f.getLast hne)
      (by rw [List.getLast?_eq_getLast f hne]; rfl)
  | case6 c n rest h1 h2 ih =>
    intro _ _
    rw [passAux, if_neg h1, if_neg h2, dif_pos rfl]
    refine ih (List.chain'_singleton c) ?_
    intro p hp d hd
    simp at hp hd
    subst hp
    subst hd
    exact ⟨by simpa using h1, by simpa using h2⟩
  | case7 f c n rest h1 h2 hne h ih =>
    intro hf hb
    have := hb (f.getLast hne) (by rw [List.getLast?_eq_getLast f hne]; rfl) c rfl
    rw [this.1] at h
    exact absurd h (by simp)
  | case8 f c n rest h1 h2 hne h3 h ih =>
    intro hf hb
    have := hb (f.getLast hne) (by rw [List.getLast?_eq_getLast f hne]; rfl) c rfl
    rw [this.2] at h
    exact absurd h (by simp)
  | case9 f c n rest h1 h2 hne h3 h ih =>
    intro hf hb
    rw [passAux, if_neg h1, if_neg h2, dif_neg hne, if_neg h3, if_neg h]
    refine ih (List.chain'_append.mpr ⟨hf, List.chain'_singleton c,
      fun x hx y hy => by
        simp at hy
        subst hy
        exact hb x hx c rfl⟩) ?_
    intro p hp d hd
    rw [List.getLast?_concat] at hp
    simp at hp hd
    subst hp
    subst hd
    exact ⟨by simpa using h1, by simpa using h2⟩

/-- Identity of the pass on no-fire states: if no adjacent pair of the
combined state fires, the pass returns it unchanged. -/
theorem passAux_id {V : Type} (f s : List (VersionConstraint V)) :
    List.Chain' NoFire (f ++ s) → passAux f s = f ++ s := by
  induction f, s using passAux.induct with
  | case1 f =>
    intro _
    rw [passAux, List.append_nil]
  | case2 f c =>
    intro _
    rw [passAux]
  | case3 f c n rest h ih =>
    intro hc
    have : NoFire c n :=
      List.chain'_cons.mp ((List.chain'_append.mp hc).2.1) |>.1
    rw [this.1] at h
    exact absurd h (by simp)
  | case4 c n rest h1 h2 ih =>
    intro hc
    have : NoFire c n :=
      List.chain'_cons.mp ((List.chain'_append.mp hc).2.1) |>.1
    rw [this.2] at h2
    exact absurd h2 (by simp)
  | case5 f c n rest h1 h2 hne ih =>
    intro hc
    have : NoFire c n :=
      List.chain'_cons.mp ((List.chain'_append.mp hc).2.1) |>.1
    rw [this.2] at h2
    exact absurd h2 (by simp)
  | case6 c n rest h1 h2 ih =>
    intro hc
    rw [passAux, if_neg h1, if_neg h2, dif_pos rfl]
    rw [ih (by simpa using hc)]
    simp
  | case7 f c n rest h1 h2 hne h ih =>
    intro hc
    have hbd := (List.chain'_append.mp hc).2.2 (f.getLast hne)
      (by rw [List.getLast?_eq_getLast f hne]; rfl) c rfl
    rw [hbd.1] at h
    exact absurd h (by simp)
  | case8 f c n rest h1 h2 hne h3 h ih =>
    intro hc
    have hbd := (List.chain'_append.mp hc).2.2 (f.getLast hne)
      (by rw [List.getLast?_eq_getLast f hne]; rfl) c rfl
    rw [hbd.2] at h
    exact absurd h (by simp)
  | case9 f c n rest h1 h2 hne h3 h ih =>
    intro hc
    rw [passAux, if_neg h1, if_neg h2, dif_neg hne, if_neg h3, if_neg h]
    have he : (f ++ [c]) ++ n :: rest = f ++ c :: n :: rest := by
      simp
    rw [ih (by rw [he]; exact hc), he]

/-- The `=`-adjacency checker accepts exactly the comparator lists
satisfying spec invariant 5. -/
theorem firstEqViolation_eq_none_iff :
    ∀ l : List Comparator,
      firstEqViolation l = none ↔ List.Chain' EqRulePairs l
  | [] => by simp [firstEqViolation]
  | [c] => by simp [firstEqViolation]
  | a :: b :: t => by
    rw [firstEqViolation, List.chain'_cons]
    by_cases h : (a = Comparator.Equal &&
        !(b = Comparator.Equal || isLowerB b)) = true
    · rw [if_pos h]
      simp only [Bool.and_eq_true, decide_eq_true_eq, Bool.not_eq_true',
        Bool.or_eq_false_iff, decide_eq_false_iff_not] at h
      simp only [reduceCtorEq, false_iff, not_and]
      intro hab
      exact absurd (hab h.1) (by
        rcases h with ⟨_, hb1, hb2⟩
        rintro (hc | hc)
        · exact hb1 hc
        · rw [hc] at hb2
          simp at hb2)
    · rw [if_neg h]
      simp only [Bool.and_eq_true, decide_eq_true_eq, Bool.not_eq_true',
        Bool.or_eq_false_iff, decide_eq_false_iff_not, not_and] at h
      have hab : EqRulePairs a b := by
        intro ha
        by_cases hb : b = Comparator.Equal
        · exact Or.inl hb
        · by_cases hl : isLowerB b = true
          · exact Or.inr hl
          · exact absurd (fun h2 => by simp [hb, hl] at h2 ⊢) (by
              intro hcon
              exact hcon (h ha))
      rw [firstEqViolation_eq_none_iff (b :: t)]
      simp [hab]

/-- The alternation checker accepts exactly the comparator lists satisfying
spec invariant 6. -/
theorem firstAltViolation_eq_none_iff :
    ∀ l : List Comparator,
      firstAltViolation l = none ↔ List.Chain' AltRulePairs l
  | [] => by simp [firstAltViolation]
  | [c] => by simp [firstAltViolation]
  | a :: b :: t => by
    rw [firstAltViolation, List.chain'_cons]
    by_cases h : ((isUpperB a && !isLowerB b) || (isLowerB a && !isUpperB b)) = true
    · rw [if_pos h]
      simp only [Bool.or_eq_true, Bool.and_eq_true, Bool.not_eq_true'] at h
      simp only [reduceCtorEq, false_iff, not_and]
      intro hab
      rcases h with ⟨hu, hl⟩ | ⟨hl, hu⟩
      · rw [hab.1 hu] at hl
        simp at hl
      · rw [hab.2 hl] at hu
        simp at hu
    · rw [if_neg h]
      simp only [Bool.or_eq_true, Bool.and_eq_true, Bool.not_eq_true',
        not_or, not_and] at h
      have hab : AltRulePairs a b := by
        constructor
        · intro hu
          by_contra hl
          exact absurd (h.1 hu) (by simp [Bool.not_eq_true] at hl ⊢; exact hl)
        · intro hl
          by_contra hu
          exact absurd (h.2 hl) (by simp [Bool.not_eq_true] at hu ⊢; exact hu)
      rw [firstAltViolation_eq_none_iff (b :: t)]
      simp [hab]

/-- Inversion of a successful `normalize_and_validate`: the three success
paths (single constraint; only `!=` constraints; redundancy-eliminated
bounds recombined with `!=`) with the facts each one establishes. -/
theorem normalize_inversion {V : Type} [LinearOrder V] {vshow : V → List Char}
    {r r' : VersionRange V}
    (h : normalize_and_validate vshow r = .ok r') :
    (r.constraints.length = 1 ∧ r' = r) ∨
    (2 ≤ r.constraints.length ∧
     (∀ c ∈ r.constraints, ¬ c.comparator = Comparator.Any) ∧
     firstDupVersion (sortByVersion r.constraints) = none ∧
     (((sortByVersion r.constraints).filter
         (fun c => ¬ c.comparator = Comparator.NotEqual) = [] ∧
       r' = ⟨r.versioning_scheme,
         (sortByVersion r.constraints).filter
           fun c => c.comparator = Comparator.NotEqual⟩) ∨
      ((sortByVersion r.constraints).filter
         (fun c => ¬ c.comparator = Comparator.NotEqual) ≠ [] ∧
       firstEqViolation ((passAux []
         ((sortByVersion r.constraints).filter
           fun c => ¬ c.comparator = Comparator.NotEqual)).map (·.comparator)) =
         none ∧
       firstAltViolation (((passAux []
         ((sortByVersion r.constraints).filter
           fun c => ¬ c.comparator = Comparator.NotEqual)).map
             (·.comparator)).filter fun c => ¬ c = Comparator.Equal) = none ∧
       r' = ⟨r.versioning_scheme,
         sortByVersion ((passAux []
           ((sortByVersion r.constraints).filter
             fun c => ¬ c.comparator = Comparator.NotEqual)) ++
           (sortByVersion r.constraints).filter
             fun c => c.comparator = Comparator.NotEqual)⟩))) := by
  unfold normalize_and_validate at h
  by_cases h0 : r.constraints = []
  · rw [if_pos h0] at h
    simp at h
  rw [if_neg h0] at h
  by_cases h1 : ((r.constraints.any fun c => c.comparator = Comparator.Any) &&
      decide (1 < r.constraints.length)) = true
  · rw [if_pos h1] at h
    simp at h
  rw [if_neg h1] at h
  by_cases h2 : r.constraints.length = 1
  · rw [if_pos h2] at h
    injection h with he
    exact Or.inl ⟨h2, he.symm⟩
  rw [if_neg h2] at h
  have hlen : 2 ≤ r.constraints.length := by
    have hz : r.constraints.length ≠ 0 := by
      simpa [List.length_eq_zero] using h0
    omega
  have hnoany : ∀ c ∈ r.constraints, ¬ c.comparator = Comparator.Any := by
    intro c hc hAny
    apply h1
    simp only [Bool.and_eq_true, List.any_eq_true, decide_eq_true_eq]
    exact ⟨⟨c, hc, by simp [hAny]⟩, by omega⟩
  refine Or.inr ⟨hlen, hnoany, ?_⟩
  cases hd : firstDupVersion (sortByVersion r.constraints) with
  | some v =>
    simp only [hd] at h
    exact absurd h (by simp)
  | none =>
    simp only [hd] at h
    refine ⟨rfl, ?_⟩
    by_cases ho : (sortByVersion r.constraints).filter
        (fun c => ¬ c.comparator = Comparator.NotEqual) = []
    · rw [if_pos ho] at h
      injection h with he
      exact Or.inl ⟨ho, he.symm⟩
    · rw [if_neg ho] at h
      cases he : firstEqViolation ((passAux []
          ((sortByVersion r.constraints).filter
            fun c => ¬ c.comparator = Comparator.NotEqual)).map
              (·.comparator)) with
      | some pr =>
        rw [he] at h
        simp at h
      | none =>
        rw [he] at h
        cases ha : firstAltViolation (((passAux []
            ((sortByVersion r.constraints).filter
              fun c => ¬ c.comparator = Comparator.NotEqual)).map
                (·.comparator)).filter fun c => ¬ c = Comparator.Equal) with
        | some pr =>
          rw [ha] at h
          simp at h
        | none =>
          rw [ha] at h
          injection h with hr
          exact Or.inr ⟨ho, rfl, rfl, hr.symm⟩

/-- A range with a single constraint satisfies all spec section 3
invariants. -/
theorem valid_of_singleton {V : Type} [LinearOrder V] {r : VersionRange V}
    {c : VersionConstraint V} (h : r.constraints = [c]) : Valid r := by
  refine ⟨by simp [h], by simp [h], by simp [h], by simp [h], ?_, ?_⟩ <;>
    rw [h] <;> simp only [List.map_cons, List.map_nil] <;>
    rcases hp : (fun x => decide ¬ x = Comparator.NotEqual) c.comparator <;>
    rcases hq : (fun x => isBoundB x) c.comparator <;>
    simp [List.filter, hp, hq]

/-- A range whose constraints are version-sorted, pairwise
version-distinct, and all `!=` satisfies all spec section 3 invariants. -/
theorem valid_of_all_notEqual {V : Type} [LinearOrder V] {r : VersionRange V}
    (hne : r.constraints ≠ [])
    (hsorted : List.Sorted vle r.constraints)
    (hdist : r.constraints.Pairwise fun a b => a.version ≠ b.version)
    (hall : ∀ c ∈ r.constraints, c.comparator = Comparator.NotEqual) :
    Valid r := by
  refine ⟨hne, ?_, hdist, hsorted, ?_, ?_⟩
  · intro c hc hAny
    rw [hall c hc] at hAny
    cases hAny
  · have he : (r.constraints.map (·.comparator)).filter
        (fun c => ¬ c = Comparator.NotEqual) = [] := by
      rw [List.filter_eq_nil_iff]
      intro a ha
      rcases List.mem_map.mp ha with ⟨c, hc, hmap⟩
      simp [← hmap, hall c hc]
    rw [he]
    exact List.chain'_nil
  · have he : (r.constraints.map (·.comparator)).filter
        (fun c => isBoundB c) = [] := by
      rw [List.filter_eq_nil_iff]
      intro a ha
      rcases List.mem_map.mp ha with ⟨c, hc, hmap⟩
      simp [← hmap, hall c hc, isBoundB, isLowerB, isUpperB]
    rw [he]
    exact List.chain'_nil

/-- The recombination path of `normalize_and_validate` produces a range
satisfying all spec section 3 invariants. -/
theorem valid_of_main {V : Type} [LinearOrder V] {r' : VersionRange V}
    (sorted : List (VersionConstraint V))
    (hs : List.Sorted vle sorted)
    (hd : sorted.Pairwise fun a b => a.version ≠ b.version)
    (hnoany : ∀ c ∈ sorted, ¬ c.comparator = Comparator.Any)
    (hone : sorted.filter (fun c => ¬ c.comparator = Comparator.NotEqual) ≠ [])
    (heq : firstEqViolation ((passAux []
      (sorted.filter fun c => ¬ c.comparator = Comparator.NotEqual)).map
        (·.comparator)) = none)
    (halt : firstAltViolation (((passAux []
      (sorted.filter fun c => ¬ c.comparator = Comparator.NotEqual)).map
        (·.comparator)).filter fun c => ¬ c = Comparator.Equal) = none)
    (hr : r'.constraints = sortByVersion ((passAux []
      (sorted.filter fun c => ¬ c.comparator = Comparator.NotEqual)) ++
      sorted.filter fun c => c.comparator = Comparator.NotEqual)) :
    Valid r' := by
  set others := sorted.filter (fun c => ¬ c.comparator = Comparator.NotEqual)
    with hothers
  set unequal := sorted.filter (fun c => c.comparator = Comparator.NotEqual)
    with huneq
  set filtered := passAux [] others with hfilt
  set final := sortByVersion (filtered ++ unequal) with hfinal
  have hsub : filtered.Sublist others := by
    simpa using passAux_sublist [] others
  have hf_ne : ∀ a ∈ filtered, ¬ a.comparator = Comparator.NotEqual := by
    intro a ha
    simpa using List.of_mem_filter (hsub.subset ha)
  have hu_ne : ∀ b ∈ unequal, b.comparator = Comparator.NotEqual := by
    intro b hb
    simpa using List.of_mem_filter hb
  have hf_mem : ∀ a ∈ filtered, a ∈ sorted := fun a ha =>
    (List.filter_sublist sorted).subset (hsub.subset ha)
  have hu_mem : ∀ b ∈ unequal, b ∈ sorted := fun b hb =>
    (List.filter_sublist sorted).subset hb
  have hvlt_sorted : sorted.Pairwise vlt :=
    (hs.and hd).imp fun h => lt_of_le_of_ne h.1 h.2
  have hvlt_f : filtered.Pairwise vlt :=
    List.Pairwise.sublist (hsub.trans (List.filter_sublist sorted)) hvlt_sorted
  have hvlt_u : unequal.Pairwise vlt :=
    List.Pairwise.sublist (List.filter_sublist sorted) hvlt_sorted
  have hsymm : Symmetric (fun a b : VersionConstraint V =>
      a.version ≠ b.version) := fun _ _ h => Ne.symm h
  have hcross : ∀ a ∈ filtered, ∀ b ∈ unequal, a.version ≠ b.version := by
    intro a ha b hb
    refine List.Pairwise.forall hsymm hd (hf_mem a ha)
      (hu_mem b hb) ?_
    intro hab
    exact hf_ne a ha (by rw [hab]; exact hu_ne b hb)
  have hpw_app : (filtered ++ unequal).Pairwise
      (fun a b => a.version ≠ b.version) :=
    List.pairwise_append.mpr ⟨hvlt_f.imp (fun h => ne_of_lt h),
      hvlt_u.imp (fun h => ne_of_lt h), hcross⟩
  have hperm : final.Perm (filtered ++ unequal) :=
    perm_sortByVersion (filtered ++ unequal)
  have hfinal_sorted : List.Sorted vle final :=
    sorted_sortByVersion (filtered ++ unequal)
  have hfinal_dist : final.Pairwise (fun a b => a.version ≠ b.version) :=
    (hperm.pairwise_iff (fun h => Ne.symm h)).mpr hpw_app
  have hfinal_vlt : final.Pairwise vlt :=
    (hfinal_sorted.and hfinal_dist).imp fun h => lt_of_le_of_ne h.1 h.2
  have hfne : filtered ≠ [] := by
    refine passAux_ne_nil [] others ?_
    simpa using hone
  have hfinal_ne : final ≠ [] := by
    intro h0
    have hl := hperm.length_eq
    rw [h0] at hl
    simp only [List.length_nil, List.length_append] at hl
    exact hfne (List.length_eq_zero.mp (by omega))
  have hfinal_noany : ∀ c ∈ final, ¬ c.comparator = Comparator.Any := by
    intro c hc
    rcases List.mem_append.mp (hperm.mem_iff.mp hc) with hmem | hmem
    · exact hnoany c (hf_mem c hmem)
    · exact hnoany c (hu_mem c hmem)
  have happf : (filtered ++ unequal).filter
      (fun c => ¬ c.comparator = Comparator.NotEqual) = filtered := by
    rw [List.filter_append, List.filter_eq_self.mpr, List.filter_eq_nil_iff.mpr,
      List.append_nil]
    · intro b hb
      simp [hu_ne b hb]
    · intro a ha
      simpa using hf_ne a ha
  have hfilterA : final.filter
      (fun c => ¬ c.comparator = Comparator.NotEqual) = filtered := by
    refine List.eq_of_perm_of_sorted (r := vlt) ?_ ?_ ?_
    · exact happf ▸ hperm.filter _
    · exact List.Pairwise.filter _ hfinal_vlt
    · exact hvlt_f
  have hu0 : unequal.filter (fun c => isBoundB c.comparator) = [] :=
    List.filter_eq_nil_iff.mpr (by
      intro b hb
      simp [hu_ne b hb, isBoundB, isLowerB, isUpperB])
  have happfB : (filtered ++ unequal).filter
      (fun c => isBoundB c.comparator) =
      filtered.filter (fun c => isBoundB c.comparator) := by
    rw [List.filter_append, hu0, List.append_nil]
  have hfilterB : final.filter (fun c => isBoundB c.comparator) =
      filtered.filter (fun c => isBoundB c.comparator) := by
    refine List.eq_of_perm_of_sorted (r := vlt) ?_ ?_ ?_
    · exact happfB ▸ hperm.filter _
    · exact List.Pairwise.filter _ hfinal_vlt
    · exact List.Pairwise.filter _ hvlt_f
  have hchainEq : List.Chain' EqRulePairs (filtered.map (·.comparator)) :=
    (firstEqViolation_eq_none_iff _).mp heq
  have hchainAlt : List.Chain' AltRulePairs
      ((filtered.map (·.comparator)).filter fun c => ¬ c = Comparator.Equal) :=
    (firstAltViolation_eq_none_iff _).mp halt
  refine ⟨by rw [hr]; exact hfinal_ne, ?_,
    by rw [hr]; exact hfinal_dist, by rw [hr]; exact hfinal_sorted, ?_, ?_⟩
  · intro c hc hAny
    rw [hr] at hc
    exact absurd hAny (hfinal_noany c hc)
  · rw [hr]
    have hcomm : (final.map (·.comparator)).filter
        (fun c => ¬ c = Comparator.NotEqual) =
        (final.filter (fun c => ¬ c.comparator = Comparator.NotEqual)).map
          (·.comparator) := by
      rw [List.map_filter]
      rfl
    rw [hcomm, hfilterA]
    exact hchainEq
  · rw [hr]
    have hcomm2 : (final.map (·.comparator)).filter (fun c => isBoundB c) =
        (final.filter (fun c => isBoundB c.comparator)).map (·.comparator) := by
      rw [List.map_filter]
      rfl
    have hcomm3 : (filtered.filter fun c => isBoundB c.comparator).map
        (·.comparator) = (filtered.map (·.comparator)).filter
          (fun c => isBoundB c) := by
      rw [List.map_filter]
      rfl
    rw [hcomm2, hfilterB, hcomm3]
    have hcong : (filtered.map (·.comparator)).filter (fun c => isBoundB c) =
        (filtered.map (·.comparator)).filter
          (fun c => ¬ c = Comparator.Equal) := by
      apply List.filter_congr
      intro x hx
      rcases List.mem_map.mp hx with ⟨c, hc, hmap⟩
      have hxne : ¬ x = Comparator.NotEqual := by
        rw [← hmap]
        exact hf_ne c hc
      have hxany : ¬ x = Comparator.Any := by
        rw [← hmap]
        exact hnoany c (hf_mem c hc)
      rcases x <;>
        first
          | rfl
          | exact absurd rfl hxne
          | exact absurd rfl hxany
    rw [hcong]
    exact hchainAlt

/-- Every successful `normalize_and_validate` output satisfies the spec
section 3 invariants. -/
theorem normalize_ok_valid {V : Type} [LinearOrder V] (vshow : V → List Char)
    (r r' : VersionRange V)
    (h : normalize_and_validate vshow r = .ok r') : Valid r' := by
  rcases normalize_inversion h with ⟨hlen1, hr⟩ | ⟨hlen, hnoany, hdup, hrest⟩
  · rcases List.length_eq_one.mp hlen1 with ⟨c, hc⟩
    subst hr
    exact valid_of_singleton hc
  · have hs := sorted_sortByVersion r.constraints
    have hdist := (firstDup_eq_none_iff hs).mp hdup
    have hnoany2 : ∀ c ∈ sortByVersion r.constraints,
        ¬ c.comparator = Comparator.Any := by
      intro c hc
      exact hnoany c ((perm_sortByVersion r.constraints).mem_iff.mp hc)
    rcases hrest with ⟨ho, hr⟩ | ⟨hone, heqv, haltv, hr⟩
    · subst hr
      have hall : ∀ c ∈ sortByVersion r.constraints,
          c.comparator = Comparator.NotEqual := by
        intro c hc
        by_contra hcne
        have hmem : c ∈ (sortByVersion r.constraints).filter
            (fun c => ¬ c.comparator = Comparator.NotEqual) :=
          List.mem_filter.mpr ⟨hc, by simpa using hcne⟩
        rw [ho] at hmem
        simp at hmem
      have huneq_eq : (sortByVersion r.constraints).filter
          (fun c => c.comparator = Comparator.NotEqual) =
          sortByVersion r.constraints :=
        List.filter_eq_self.mpr (by
          intro a ha
          simpa using hall a ha)
      refine valid_of_all_notEqual ?_ ?_ ?_ ?_ <;>
        simp only [huneq_eq]
      · intro h0
        have hl := (perm_sortByVersion r.constraints).length_eq
        rw [h0] at hl
        simp at hl
        omega
      · exact hs
      · exact hdist
      · exact hall
    · subst hr
      exact valid_of_main (sortByVersion r.constraints) hs hdist hnoany2
        hone heqv haltv rfl

/-- Every successful `from_str` output satisfies the spec section 3
invariants. -/
theorem from_str_ok_valid {V : Type} [LinearOrder V] (VS : VScheme V)
    (s : List Char) (r : VersionRange V)
    (h : from_str VS s = .ok r) : Valid r := by
  unfold from_str at h
  cases hsp : splitFirst ':' (stripWs s) with
  | none =>
    simp only [hsp] at h
    exact absurd h (by simp)
  | some pr =>
    obtain ⟨scheme, rest⟩ := pr
    simp only [hsp] at h
    by_cases hv : ¬ scheme = "vers".toList
    · rw [if_pos hv] at h
      simp at h
    rw [if_neg hv] at h
    cases hsp2 : splitFirst '/' rest with
    | none =>
      simp only [hsp2] at h
      exact absurd h (by simp)
    | some pr2 =>
      obtain ⟨vsch, rest2⟩ := pr2
      simp only [hsp2] at h
      by_cases hvs : toLowerStr vsch = []
      · simp only [hvs, if_pos rfl] at h
        simp at h
      simp only [if_neg hvs] at h
      by_cases hcs : trimChars rest2 = []
      · simp only [hcs, if_pos rfl] at h
        simp at h
      simp only [if_neg hcs] at h
      by_cases hstar : trimChars rest2 = ['*']
      · simp only [hstar, if_pos rfl] at h
        injection h with he
        exact valid_of_singleton (by rw [← he])
      simp only [if_neg hstar] at h
      by_cases htoks : (splitChar '|' (trimPipe (trimChars rest2))).filter
          (fun t => ¬ t = []) = []
      · simp only [htoks, if_pos rfl] at h
        simp at h
      simp only [if_neg htoks] at h
      cases hpa : parseAll VS ((splitChar '|'
          (trimPipe (trimChars rest2))).filter fun t => ¬ t = []) with
      | error e =>
        simp only [hpa] at h
        exact absurd h (by simp)
      | ok constraints =>
        simp only [hpa] at h
        exact normalize_ok_valid VS.vdisplay _ r h

/-- C5: every range produced by a successful `normalize_and_validate`, and
every range returned by a successful parse, satisfies all validity
invariants of spec section 3. -/
theorem normalize_and_parse_valid :
    (∀ {V : Type} [LinearOrder V] (vshow : V → List Char)
      (r r' : VersionRange V),
      normalize_and_validate vshow r = .ok r' → Valid r') ∧
    (∀ {V : Type} [LinearOrder V] (VS : VScheme V) (s : List Char)
      (r : VersionRange V),
      from_str VS s = .ok r → Valid r) :=
  ⟨fun vshow r r' h => normalize_ok_valid vshow r r' h,
   fun VS s r h => from_str_ok_valid VS s r h⟩

/-- Witness for `normalize_and_parse_valid` at a concrete normalization and
a concrete parse. -/
theorem normalize_and_parse_valid_witness :
    Valid (VersionRange.new "npm".toList [⟨Comparator.Equal, (1 : Nat)⟩]) ∧
    Valid (VersionRange.new "npm".toList [⟨Comparator.Any, (0 : Nat)⟩]) :=
  ⟨normalize_and_parse_valid.1 NatVS.vdisplay
      (VersionRange.new "npm".toList [⟨Comparator.Equal, (1 : Nat)⟩]) _
      (by decide),
   normalize_and_parse_valid.2 NatVS "vers:npm/*".toList _ (by decide)⟩

/-- `sortByVersion` leaves an already version-sorted list unchanged. -/
theorem sortByVersion_eq_self {V : Type} [LinearOrder V]
    {l : List (VersionConstraint V)} (h : List.Sorted vle l) :
    sortByVersion l = l :=
  List.Sorted.insertionSort_eq h

/-- Forward computation of `normalize_and_validate` on the all-`!=` path. -/
theorem normalize_allNE_eq {V : Type} [LinearOrder V] (vshow : V → List Char)
    (r : VersionRange V)
    (hne : r.constraints ≠ [])
    (hnoany : (r.constraints.any fun c => c.comparator = Comparator.Any) = false)
    (hlen : ¬ r.constraints.length = 1)
    (hdup : firstDupVersion (sortByVersion r.constraints) = none)
    (ho : (sortByVersion r.constraints).filter
      (fun c => ¬ c.comparator = Comparator.NotEqual) = []) :
    normalize_and_validate vshow r = .ok ⟨r.versioning_scheme,
      (sortByVersion r.constraints).filter
        fun c => c.comparator = Comparator.NotEqual⟩ := by
  unfold normalize_and_validate
  rw [if_neg hne, if_neg (by simp [hnoany]), if_neg hlen]
  simp only [hdup, ho, if_pos rfl]
  simp

/-- Forward computation of `normalize_and_validate` on the main
recombination path. -/
theorem normalize_main_eq {V : Type} [LinearOrder V] (vshow : V → List Char)
    (r : VersionRange V)
    (hne : r.constraints ≠ [])
    (hnoany : (r.constraints.any fun c => c.comparator = Comparator.Any) = false)
    (hlen : ¬ r.constraints.length = 1)
    (hdup : firstDupVersion (sortByVersion r.constraints) = none)
    (hone : (sortByVersion r.constraints).filter
      (fun c => ¬ c.comparator = Comparator.NotEqual) ≠ [])
    (heqv : firstEqViolation ((passAux []
      ((sortByVersion r.constraints).filter
        fun c => ¬ c.comparator = Comparator.NotEqual)).map (·.comparator)) =
      none)
    (haltv : firstAltViolation (((passAux []
      ((sortByVersion r.constraints).filter
        fun c => ¬ c.comparator = Comparator.NotEqual)).map
          (·.comparator)).filter fun c => ¬ c = Comparator.Equal) = none) :
    normalize_and_validate vshow r = .ok ⟨r.versioning_scheme,
      sortByVersion ((passAux []
        ((sortByVersion r.constraints).filter
          fun c => ¬ c.comparator = Comparator.NotEqual)) ++
        (sortByVersion r.constraints).filter
          fun c => c.comparator = Comparator.NotEqual)⟩ := by
  unfold normalize_and_validate
  rw [if_neg hne, if_neg (by simp [hnoany]), if_neg hlen]
  simp only [hdup, if_neg hone, heqv, haltv]

/-- Normalization is idempotent: re-normalizing a successful output
succeeds and returns it unchanged. -/
theorem normalize_idempotent {V : Type} [LinearOrder V] {vshow : V → List Char}
    {r r' : VersionRange V} (h : normalize_and_validate vshow r = .ok r') :
    normalize_and_validate vshow r' = .ok r' := by
  rcases normalize_inversion h with ⟨hlen1, hr⟩ | ⟨hlen, hnoany, hdup, hrest⟩
  · subst hr
    exact h
  · have hs := sorted_sortByVersion r.constraints
    have hdist := (firstDup_eq_none_iff hs).mp hdup
    have hnoany2 : ∀ c ∈ sortByVersion r.constraints,
        ¬ c.comparator = Comparator.Any := fun c hc =>
      hnoany c ((perm_sortByVersion r.constraints).mem_iff.mp hc)
    have hslen : (sortByVersion r.constraints).length = r.constraints.length :=
      (perm_sortByVersion r.constraints).length_eq
    rcases hrest with ⟨ho, hr⟩ | ⟨hone, heqv, haltv, hr⟩
    · subst hr
      have hall : ∀ c ∈ sortByVersion r.constraints,
          c.comparator = Comparator.NotEqual := by
        intro c hc
        by_contra hcne
        have hmem : c ∈ (sortByVersion r.constraints).filter
            (fun c => ¬ c.comparator = Comparator.NotEqual) :=
          List.mem_filter.mpr ⟨hc, by simpa using hcne⟩
        rw [ho] at hmem
        simp at hmem
      have huneq_eq : (sortByVersion r.constraints).filter
          (fun c => c.comparator = Comparator.NotEqual) =
          sortByVersion r.constraints :=
        List.filter_eq_self.mpr (by
          intro a ha
          simpa using hall a ha)
      have hres := normalize_allNE_eq vshow
        ⟨r.versioning_scheme, (sortByVersion r.constraints).filter
          fun c => c.comparator = Comparator.NotEqual⟩
        (by
          simp only [huneq_eq]
          intro h0
          rw [h0] at hslen
          simp at hslen
          omega)
        (by
          simp only [huneq_eq]
          rw [List.any_eq_false]
          intro c hc
          simp [hall c hc])
        (by
          simp only [huneq_eq, hslen]
          omega)
        (by
          simp only [huneq_eq, sortByVersion_eq_self hs]
          exact hdup)
        (by
          simp only [huneq_eq, sortByVersion_eq_self hs]
          exact ho)
      rw [hres]
      simp only [huneq_eq, sortByVersion_eq_self hs]
    · subst hr
      set sorted := sortByVersion r.constraints with hsorted_def
      set others := sorted.filter (fun c => ¬ c.comparator = Comparator.NotEqual)
        with hothers
      set unequal := sorted.filter (fun c => c.comparator = Comparator.NotEqual)
        with huneq
      set filtered := passAux [] others with hfilt
      set final := sortByVersion (filtered ++ unequal) with hfinal
      have hsub : filtered.Sublist others := by
        simpa using passAux_sublist [] others
      have hf_ne : ∀ a ∈ filtered, ¬ a.comparator = Comparator.NotEqual := by
        intro a ha
        simpa using List.of_mem_filter (hsub.subset ha)
      have hu_ne : ∀ b ∈ unequal, b.comparator = Comparator.NotEqual := by
        intro b hb
        simpa using List.of_mem_filter hb
      have hf_mem : ∀ a ∈ filtered, a ∈ sorted := fun a ha =>
        (List.filter_sublist sorted).subset (hsub.subset ha)
      have hu_mem : ∀ b ∈ unequal, b ∈ sorted := fun b hb =>
        (List.filter_sublist sorted).subset hb
      have hsymm : Symmetric (fun a b : VersionConstraint V =>
          a.version ≠ b.version) := fun _ _ hx => Ne.symm hx
      have hvlt_sorted : sorted.Pairwise vlt :=
        (hs.and hdist).imp fun hx => lt_of_le_of_ne hx.1 hx.2
      have hvlt_f : filtered.Pairwise vlt :=
        List.Pairwise.sublist (hsub.trans (List.filter_sublist sorted))
          hvlt_sorted
      have hvlt_u : unequal.Pairwise vlt :=
        List.Pairwise.sublist (List.filter_sublist sorted) hvlt_sorted
      have hcross : ∀ a ∈ filtered, ∀ b ∈ unequal, a.version ≠ b.version := by
        intro a ha b hb
        refine List.Pairwise.forall hsymm hdist (hf_mem a ha) (hu_mem b hb) ?_
        intro hab
        exact hf_ne a ha (by rw [hab]; exact hu_ne b hb)
      have hpw_app : (filtered ++ unequal).Pairwise
          (fun a b => a.version ≠ b.version) :=
        List.pairwise_append.mpr ⟨hvlt_f.imp (fun hx => ne_of_lt hx),
          hvlt_u.imp (fun hx => ne_of_lt hx), hcross⟩
      have hperm : final.Perm (filtered ++ unequal) :=
        perm_sortByVersion (filtered ++ unequal)
      have hfinal_sorted : List.Sorted vle final :=
        sorted_sortByVersion (filtered ++ unequal)
      have hfinal_dist : final.Pairwise (fun a b => a.version ≠ b.version) :=
        (hperm.pairwise_iff fun hx => Ne.symm hx).mpr hpw_app
      have hfinal_vlt : final.Pairwise vlt :=
        (hfinal_sorted.and hfinal_dist).imp fun hx => lt_of_le_of_ne hx.1 hx.2
      have hfne : filtered ≠ [] := by
        refine passAux_ne_nil [] others ?_
        simpa using hone
      have hfinal_ne : final ≠ [] := by
        intro h0
        have hl := hperm.length_eq
        rw [h0] at hl
        simp only [List.length_nil, List.length_append] at hl
        exact hfne (List.length_eq_zero.mp (by omega))
      have hfinal_noany : ∀ c ∈ final, ¬ c.comparator = Comparator.Any := by
        intro c hc
        rcases List.mem_append.mp (hperm.mem_iff.mp hc) with hmem | hmem
        · exact hnoany2 c (hf_mem c hmem)
        · exact hnoany2 c (hu_mem c hmem)
      have happf : (filtered ++ unequal).filter
          (fun c => ¬ c.comparator = Comparator.NotEqual) = filtered := by
        rw [List.filter_append, List.filter_eq_self.mpr,
          List.filter_eq_nil_iff.mpr, List.append_nil]
        · intro b hb
          simp [hu_ne b hb]
        · intro a ha
          simpa using hf_ne a ha
      have hfilterA : final.filter
          (fun c => ¬ c.comparator = Comparator.NotEqual) = filtered := by
        refine List.eq_of_perm_of_sorted (r := vlt) ?_ ?_ ?_
        · exact happf ▸ hperm.filter _
        · exact List.Pairwise.filter _ hfinal_vlt
        · exact hvlt_f
      have happfNE : (filtered ++ unequal).filter
          (fun c => c.comparator = Comparator.NotEqual) = unequal := by
        rw [List.filter_append, List.filter_eq_nil_iff.mpr,
          List.filter_eq_self.mpr, List.nil_append]
        · intro b hb
          simp [hu_ne b hb]
        · intro a ha
          simpa using hf_ne a ha
      have hfilterNE : final.filter
          (fun c => c.comparator = Comparator.NotEqual) = unequal := by
        refine List.eq_of_perm_of_sorted (r := vlt) ?_ ?_ ?_
        · exact happfNE ▸ hperm.filter _
        · exact List.Pairwise.filter _ hfinal_vlt
        · exact hvlt_u
      have hnofire : List.Chain' NoFire filtered := by
        refine passAux_nofire [] others List.chain'_nil ?_
        simp
      have hfix : passAux [] filtered = filtered := by
        have := passAux_id [] filtered (by simpa using hnofire)
        simpa using this
      by_cases hl1 : final.length = 1
      · unfold normalize_and_validate
        rw [if_neg (by simpa using hfinal_ne), if_neg (by simp [hl1]),
          if_pos hl1]
      · have hres := normalize_main_eq vshow ⟨r.versioning_scheme, final⟩
          (by simpa using hfinal_ne)
          (by
            rw [List.any_eq_false]
            intro c hc
            simpa using hfinal_noany c hc)
          hl1
          (by
            simp only [sortByVersion_eq_self hfinal_sorted]
            exact (firstDup_eq_none_iff hfinal_sorted).mpr hfinal_dist)
          (by
            simp only [sortByVersion_eq_self hfinal_sorted, hfilterA]
            exact hfne)
          (by
            simp only [sortByVersion_eq_self hfinal_sorted, hfilterA, hfix]
            exact heqv)
          (by
            simp only [sortByVersion_eq_self hfinal_sorted, hfilterA, hfix]
            exact haltv)
        rw [hres]
        simp only [sortByVersion_eq_self hfinal_sorted, hfilterA, hfilterNE,
          hfix]

/-- Whitespace stripping is the identity on whitespace-free text. -/
theorem stripWs_eq_self {s : List Char} (h : ∀ c ∈ s, ¬ c.isWhitespace) :
    stripWs s = s :=
  List.filter_eq_self.mpr (by
    intro a ha
    simpa using h a ha)

/-- `splitFirst` splits at the first separator occurrence. -/
theorem splitFirst_append (sep : Char) :
    ∀ {pre : List Char} (post : List Char), sep ∉ pre →
      splitFirst sep (pre ++ sep :: post) = some (pre, post)
  | [], post, _ => by simp [splitFirst]
  | c :: pre, post, h => by
    have hc : ¬ c = sep := fun hcs => h (by rw [hcs]; simp)
    rw [List.cons_append, splitFirst, if_neg hc,
      splitFirst_append sep post (fun hm => h (List.mem_cons_of_mem c hm))]

/-- `dropWhile` is the identity when no element satisfies the predicate. -/
theorem dropWhile_eq_self_of_all {p : Char → Bool} :
    ∀ {l : List Char}, (∀ c ∈ l, p c = false) → l.dropWhile p = l
  | [], _ => rfl
  | c :: t, h => by
    rw [List.dropWhile_cons, if_neg (by simp [h c (by simp)])]

/-- `dropWhile` is the identity when the head fails the predicate. -/
theorem dropWhile_eq_self_of_head {p : Char → Bool} :
    ∀ {l : List Char}, (∀ c ∈ l.head?, p c = false) → l.dropWhile p = l
  | [], _ => rfl
  | c :: t, h => by
    rw [List.dropWhile_cons, if_neg (by simp [h c rfl])]

/-- Trimming is the identity on whitespace-free text. -/
theorem trimChars_eq_self {s : List Char} (h : ∀ c ∈ s, ¬ c.isWhitespace) :
    trimChars s = s := by
  unfold trimChars
  have h1 : s.dropWhile Char.isWhitespace = s :=
    dropWhile_eq_self_of_all (by
      intro c hc
      simpa using h c hc)
  have h2 : s.reverse.dropWhile Char.isWhitespace = s.reverse :=
    dropWhile_eq_self_of_all (by
      intro c hc
      simpa using h c (List.mem_reverse.mp hc))
  rw [h1, h2, List.reverse_reverse]

/-- Pipe trimming is the identity when neither end is a pipe. -/
theorem trimPipe_eq_self {s : List Char}
    (h1 : ∀ c ∈ s.head?, ¬ c = '|') (h2 : ∀ c ∈ s.getLast?, ¬ c = '|') :
    trimPipe s = s := by
  unfold trimPipe
  have g1 : s.dropWhile (fun c => c = '|') = s :=
    dropWhile_eq_self_of_head (by
      intro c hc
      simpa using h1 c hc)
  have g2 : s.reverse.dropWhile (fun c => c = '|') = s.reverse :=
    dropWhile_eq_self_of_head (by
      intro c hc
      rw [List.head?_reverse] at hc
      simpa using h2 c hc)
  rw [g1, g2, List.reverse_reverse]

/-- `contains` is false when the character is absent. -/
theorem contains_eq_false_of {a : Char} :
    ∀ {l : List Char}, (∀ c ∈ l, ¬ c = a) → l.contains a = false
  | [], _ => rfl
  | c :: t, h => by
    have hc : ¬ a = c := fun he => h c (by simp) he.symm
    simp only [List.contains_cons, Bool.or_eq_false_iff]
    exact ⟨by simpa using hc, contains_eq_false_of fun d hd => h d (by simp [hd])⟩

/-- `splitChar` returns a single segment when the separator is absent. -/
theorem splitChar_single {sep : Char} :
    ∀ {t : List Char}, sep ∉ t → splitChar sep t = [t]
  | [], _ => rfl
  | c :: t, h => by
    have hc : ¬ c = sep := fun hcs => h (by rw [hcs]; simp)
    rw [splitChar, if_neg hc,
      splitChar_single (fun hm => h (List.mem_cons_of_mem c hm))]

/-- `splitChar` peels off a separator-free prefix. -/
theorem splitChar_prefix {sep : Char} :
    ∀ {t : List Char} (rest : List Char), sep ∉ t →
      splitChar sep (t ++ sep :: rest) = t :: splitChar sep rest
  | [], rest, _ => by simp [splitChar]
  | c :: t, rest, h => by
    have hc : ¬ c = sep := fun hcs => h (by rw [hcs]; simp)
    rw [List.cons_append, splitChar, if_neg hc,
      splitChar_prefix rest (fun hm => h (List.mem_cons_of_mem c hm))]

/-- `splitChar` inverts separator-joining of separator-free tokens. -/
theorem splitChar_join {sep : Char} :
    ∀ (ts : List (List Char)) (t : List Char), sep ∉ t →
      (∀ u ∈ ts, sep ∉ u) →
      splitChar sep (t ++ (ts.map fun u => sep :: u).flatten) = t :: ts
  | [], t, ht, _ => by
    simpa using splitChar_single ht
  | u :: ts, t, ht, hts => by
    have : t ++ ((u :: ts).map fun w => sep :: w).flatten =
        t ++ sep :: (u ++ (ts.map fun w => sep :: w).flatten) := by
      simp
    rw [this, splitChar_prefix _ ht,
      splitChar_join ts u (hts u (by simp)) (fun w hw => hts w (by simp [hw]))]

/-- The last element of a separator-joined text is the last element of one
of its tokens. -/
theorem join_getLast {sep : Char} :
    ∀ (ts : List (List Char)) (t : List Char), t ≠ [] →
      (∀ u ∈ ts, u ≠ []) →
      ∃ u, (u = t ∨ u ∈ ts) ∧ u ≠ [] ∧
        (t ++ (ts.map fun w => sep :: w).flatten).getLast? = u.getLast?
  | [], t, ht, _ => ⟨t, Or.inl rfl, ht, by simp⟩
  | u :: ts, t, ht, hts => by
    have he : t ++ ((u :: ts).map fun w => sep :: w).flatten =
        (t ++ sep :: u) ++ (ts.map fun w => sep :: w).flatten := by
      simp
    rcases join_getLast ts (t ++ sep :: u) (by simp) (fun w hw => hts w (by simp [hw]))
      with ⟨w, hw, hwne, hlast⟩
    rcases hw with hw | hw
    · refine ⟨u, Or.inr (by simp), hts u (by simp), ?_⟩
      rw [he, hlast, hw, List.getLast?_append_of_ne_nil _ (by simp),
        show sep :: u = [sep] ++ u from rfl,
        List.getLast?_append_of_ne_nil _ (hts u (by simp))]
    · exact ⟨w, Or.inr (by simp [hw]), hwne, by rw [he, hlast]⟩

/-- Parsing inverts display on a single well-behaved non-`Any` constraint
token: `VersionConstraint::parse` applied to the canonical text of a
constraint returns that constraint. -/
theorem parse_tok {V : Type} (VS : VScheme V) (c : VersionConstraint V)
    (hA : c.comparator ≠ Comparator.Any)
    (hT : TokOk (VS.vdisplay c.version))
    (hP : VS.vparse (VS.vdisplay c.version) = some c.version) :
    VersionConstraint.parse VS (restConstraintChars VS c) = .ok c := by
  obtain ⟨cmp, v⟩ := c
  obtain ⟨hne, hstar, hchars, hhead⟩ := hT
  have hws : ∀ ch ∈ VS.vdisplay v, ¬ ch.isWhitespace :=
    fun ch hc => (hchars ch hc).1
  have hpc : (VS.vdisplay v).contains '%' = false :=
    contains_eq_false_of fun ch hc => (hchars ch hc).2.2
  have hpm : '%' ∉ VS.vdisplay v := fun hm => (hchars '%' hm).2.2 rfl
  cases hvd : VS.vdisplay v with
  | nil => exact absurd hvd hne
  | cons h tl =>
    rw [hvd] at hstar hP hws hpc hpm hchars hhead
    have hpa : ¬ '%' = h := fun he => hpm (by rw [he]; simp)
    have hpb : '%' ∉ tl := fun hm => hpm (by simp [hm])
    have htr : trimChars (h :: tl) = h :: tl := trimChars_eq_self hws
    simp only [headNotOp, Bool.not_eq_true', Bool.or_eq_false_iff,
      decide_eq_false_iff_not] at hhead
    obtain ⟨⟨⟨n1, n2⟩, n3⟩, n4⟩ := hhead
    cases cmp with
    | Any => exact absurd rfl hA
    | Equal =>
      show VersionConstraint.parse VS (VS.vdisplay v) = _
      rw [hvd]
      simp [VersionConstraint.parse, List.isPrefixOf, hstar,
        Ne.symm n1, Ne.symm n2, Ne.symm n3, Ne.symm n4, htr, hpa, hpb, hP]
    | NotEqual =>
      show VersionConstraint.parse VS ('!' :: '=' :: VS.vdisplay v) = _
      rw [hvd]
      simp [VersionConstraint.parse, List.isPrefixOf, htr, hpa, hpb, hP]
    | LessThan =>
      show VersionConstraint.parse VS ('<' :: VS.vdisplay v) = _
      rw [hvd]
      simp [VersionConstraint.parse, List.isPrefixOf,
        Ne.symm n3, htr, hpa, hpb, hP]
    | LessThanOrEqual =>
      show VersionConstraint.parse VS ('<' :: '=' :: VS.vdisplay v) = _
      rw [hvd]
      simp [VersionConstraint.parse, List.isPrefixOf, htr, hpa, hpb, hP]
    | GreaterThan =>
      show VersionConstraint.parse VS ('>' :: VS.vdisplay v) = _
      rw [hvd]
      simp [VersionConstraint.parse, List.isPrefixOf,
        Ne.symm n3, htr, hpa, hpb, hP]
    | GreaterThanOrEqual =>
      show VersionConstraint.parse VS ('>' :: '=' :: VS.vdisplay v) = _
      rw [hvd]
      simp [VersionConstraint.parse, List.isPrefixOf, htr, hpa, hpb, hP]

/-- Parsing inverts display tokenwise on a list of well-behaved non-`Any`
constraints. -/
theorem parseAll_map_rest {V : Type} (VS : VScheme V) :
    ∀ (cs : List (VersionConstraint V)),
      (∀ c ∈ cs, c.comparator ≠ Comparator.Any ∧
        TokOk (VS.vdisplay c.version) ∧
        VS.vparse (VS.vdisplay c.version) = some c.version) →
      parseAll VS (cs.map (restConstraintChars VS)) = .ok cs
  | [], _ => rfl
  | c :: cs, h => by
    have h1 := parse_tok VS c (h c (by simp)).1 (h c (by simp)).2.1
      (h c (by simp)).2.2
    have h2 := parseAll_map_rest VS cs fun d hd => h d (by simp [hd])
    simp only [List.map_cons, parseAll, h1, h2]

/-- Every character of a displayed constraint token is neither whitespace
nor a pipe. -/
theorem restTok_chars {V : Type} (VS : VScheme V) (c : VersionConstraint V)
    (hT : TokOk (VS.vdisplay c.version)) :
    ∀ ch ∈ restConstraintChars VS c, ¬ ch.isWhitespace ∧ ¬ ch = '|' := by
  obtain ⟨cmp, v⟩ := c
  obtain ⟨hne, hstar, hchars, hhead⟩ := hT
  intro ch hch
  cases cmp <;>
    simp only [restConstraintChars, compChars, List.cons_append,
      List.nil_append, List.mem_cons] at hch
  case Equal => exact ⟨(hchars ch hch).1, (hchars ch hch).2.1⟩
  case NotEqual =>
    rcases hch with rfl | rfl | hch
    · exact ⟨by decide, by decide⟩
    · exact ⟨by decide, by decide⟩
    · exact ⟨(hchars ch hch).1, (hchars ch hch).2.1⟩
  case LessThan =>
    rcases hch with rfl | hch
    · exact ⟨by decide, by decide⟩
    · exact ⟨(hchars ch hch).1, (hchars ch hch).2.1⟩
  case LessThanOrEqual =>
    rcases hch with rfl | rfl | hch
    · exact ⟨by decide, by decide⟩
    · exact ⟨by decide, by decide⟩
    · exact ⟨(hchars ch hch).1, (hchars ch hch).2.1⟩
  case GreaterThan =>
    rcases hch with rfl | hch
    · exact ⟨by decide, by decide⟩
    · exact ⟨(hchars ch hch).1, (hchars ch hch).2.1⟩
  case GreaterThanOrEqual =>
    rcases hch with rfl | rfl | hch
    · exact ⟨by decide, by decide⟩
    · exact ⟨by decide, by decide⟩
    · exact ⟨(hchars ch hch).1, (hchars ch hch).2.1⟩
  case Any =>
    rcases hch with rfl | hch
    · exact ⟨by decide, by decide⟩
    · exact ⟨(hchars ch hch).1, (hchars ch hch).2.1⟩

/-- A displayed constraint token is never empty. -/
theorem restTok_ne_nil {V : Type} (VS : VScheme V) (c : VersionConstraint V)
    (hne : VS.vdisplay c.version ≠ []) :
    restConstraintChars VS c ≠ [] := by
  obtain ⟨cmp, v⟩ := c
  cases cmp <;> simp [restConstraintChars, compChars] <;> exact hne

/-- A displayed constraint token is never the bare star. -/
theorem restTok_ne_star {V : Type} (VS : VScheme V) (c : VersionConstraint V)
    (hne : VS.vdisplay c.version ≠ [])
    (hstar : VS.vdisplay c.version ≠ ['*']) :
    restConstraintChars VS c ≠ ['*'] := by
  obtain ⟨cmp, v⟩ := c
  cases cmp <;> simp [restConstraintChars, compChars] <;> first
    | exact hstar
    | exact hne
    | (intro he; exact absurd (congrArg List.head? he) (by simp))

/-- For a non-`Any` constraint the first-position and later-position
display texts coincide. -/
theorem firstRest_eq {V : Type} (VS : VScheme V) (c : VersionConstraint V)
    (hA : c.comparator ≠ Comparator.Any) :
    firstConstraintChars VS c = restConstraintChars VS c := by
  obtain ⟨cmp, v⟩ := c
  cases cmp <;> simp [firstConstraintChars, restConstraintChars] at hA ⊢

/-- Evaluation of `from_str` on text of the shape produced by `Display`:
`vers:` followed by a well-behaved scheme, a slash, and a whitespace-free
constraint part.  The scheme machinery (whitespace stripping, the two
splits, lower-casing and the emptiness checks) reduces away, leaving the
constraint-part case analysis of range.rs lines 399-427. -/
theorem from_str_struct {V : Type} [LinearOrder V] (VS : VScheme V)
    (sch cpart : List Char) (hS : SchemeOk sch)
    (hws : ∀ c ∈ cpart, ¬ c.isWhitespace) :
    from_str VS ("vers:".toList ++ sch ++ '/' :: cpart) =
      (if cpart = [] then .error .EmptyConstraints
       else if cpart = ['*'] then .ok ⟨sch, [⟨Comparator.Any, VS.vdefault⟩]⟩
       else if (splitChar '|' (trimPipe cpart)).filter (fun t => ¬ t = []) = []
         then .error .EmptyConstraints
       else
         match parseAll VS ((splitChar '|' (trimPipe cpart)).filter
             fun t => ¬ t = []) with
         | .error e => .error e
         | .ok constraints =>
           normalize_and_validate VS.vdisplay ⟨sch, constraints⟩) := by
  obtain ⟨hsne, hlow, hschars⟩ := hS
  have hstrip : stripWs ("vers:".toList ++ sch ++ '/' :: cpart) =
      "vers:".toList ++ sch ++ '/' :: cpart := by
    apply stripWs_eq_self
    intro c hc
    simp only [List.mem_append] at hc
    rcases hc with (hc | hc) | hc
    · rw [show "vers:".toList = ['v', 'e', 'r', 's', ':'] from rfl] at hc
      simp only [List.mem_cons, List.not_mem_nil, or_false] at hc
      rcases hc with rfl | rfl | rfl | rfl | rfl <;> decide
    · exact (hschars c hc).1
    · rcases List.mem_cons.mp hc with rfl | hc
      · decide
      · exact hws c hc
  have hsplit1 : splitFirst ':' ("vers:".toList ++ sch ++ '/' :: cpart) =
      some ("vers".toList, sch ++ '/' :: cpart) := by
    rw [show "vers:".toList ++ sch ++ '/' :: cpart =
      "vers".toList ++ ':' :: (sch ++ '/' :: cpart) from rfl]
    exact splitFirst_append ':' _ (by decide)
  have hsplit2 : splitFirst '/' (sch ++ '/' :: cpart) = some (sch, cpart) :=
    splitFirst_append '/' _ (fun hm => (hschars '/' hm).2 rfl)
  have htrim : trimChars cpart = cpart := trimChars_eq_self hws
  unfold from_str
  simp only [hstrip, hsplit1]
  rw [if_neg (by simp)]
  simp only [hsplit2, hlow]
  rw [if_neg hsne]
  simp only [htrim]

/-- C2 (amended): for every range returned by a successful
`normalize_and_validate` whose versioning scheme is non-empty, fixed by
lower-casing and free of whitespace and `/`, and whose constraint versions
display as well-behaved tokens that the version parser maps back to the
same versions, `Display` succeeds, `from_str` accepts the displayed text,
and displaying the re-parsed range reproduces the same text —
`Display(parse(Display(range))) == Display(range)`. -/
theorem display_parse_display_roundtrip {V : Type} [LinearOrder V]
    (VS : VScheme V) (r0 r : VersionRange V)
    (h : normalize_and_validate VS.vdisplay r0 = .ok r)
    (hS : SchemeOk r.versioning_scheme)
    (hT : ∀ c ∈ r.constraints, TokOk (VS.vdisplay c.version))
    (hP : ∀ c ∈ r.constraints,
      VS.vparse (VS.vdisplay c.version) = some c.version) :
    ∃ d, displayChars VS r = some d ∧
      ∃ r2, from_str VS d = .ok r2 ∧ displayChars VS r2 = some d := by
  obtain ⟨hne, hany, -, -, -, -⟩ := normalize_ok_valid VS.vdisplay r0 r h
  have hws_all : ∀ c ∈ r.constraints, ∀ ch ∈ restConstraintChars VS c,
      ¬ ch.isWhitespace ∧ ¬ ch = '|' := fun c hc => restTok_chars VS c (hT c hc)
  cases hcons : r.constraints with
  | nil => exact absurd hcons hne
  | cons c0 rest =>
    have hc0mem : c0 ∈ r.constraints := by rw [hcons]; simp
    by_cases hA : c0.comparator = Comparator.Any
    · have hlen1 : r.constraints.length = 1 := hany c0 hc0mem hA
      have hrest : rest = [] := by
        rw [hcons] at hlen1
        simpa using hlen1
      subst hrest
      have hfc : firstConstraintChars VS c0 = ['*'] := by
        unfold firstConstraintChars
        rw [hA]
      refine ⟨"vers:".toList ++ r.versioning_scheme ++ '/' :: ['*'], ?_,
        ⟨r.versioning_scheme, [⟨Comparator.Any, VS.vdefault⟩]⟩, ?_, ?_⟩
      · unfold displayChars
        rw [hcons]
        simp [hfc]
      · rw [from_str_struct VS _ ['*'] hS (by decide)]
        rw [if_neg (by decide), if_pos rfl]
      · unfold displayChars
        simp [firstConstraintChars]
    · have hnoany : ∀ c ∈ r.constraints, c.comparator ≠ Comparator.Any := by
        intro c hc hcA
        have hlen1 := hany c hc hcA
        rw [hcons] at hlen1 hc
        have hr0 : rest = [] := by simpa using hlen1
        subst hr0
        have : c = c0 := by simpa using hc
        subst this
        exact hA hcA
      have htok0ne : restConstraintChars VS c0 ≠ [] :=
        restTok_ne_nil VS c0 (hT c0 hc0mem).1
      have hrestmem : ∀ c ∈ rest, c ∈ r.constraints := by
        intro c hc
        rw [hcons]
        simp [hc]
      have hne_all : ∀ u ∈ rest.map (restConstraintChars VS), u ≠ [] := by
        intro u hu
        obtain ⟨c, hcr, rfl⟩ := List.mem_map.mp hu
        exact restTok_ne_nil VS c (hT c (hrestmem c hcr)).1
      have hpipe0 : '|' ∉ restConstraintChars VS c0 :=
        fun hm => (hws_all c0 hc0mem '|' hm).2 rfl
      have hpipe_all : ∀ u ∈ rest.map (restConstraintChars VS), '|' ∉ u := by
        intro u hu hm
        obtain ⟨c, hcr, rfl⟩ := List.mem_map.mp hu
        exact (hws_all c (hrestmem c hcr) '|' hm).2 rfl
      have he_cpart : restConstraintChars VS c0 ++
          (rest.map fun c => '|' :: restConstraintChars VS c).flatten =
          restConstraintChars VS c0 ++
          ((rest.map (restConstraintChars VS)).map fun u => '|' :: u).flatten := by
        rw [List.map_map]
        rfl
      have hwscp : ∀ ch ∈ restConstraintChars VS c0 ++
          (rest.map fun c => '|' :: restConstraintChars VS c).flatten,
          ¬ ch.isWhitespace := by
        intro ch hch
        rw [List.mem_append] at hch
        rcases hch with hch | hch
        · exact (hws_all c0 hc0mem ch hch).1
        · rw [List.mem_flatten] at hch
          obtain ⟨l, hl, hchl⟩ := hch
          obtain ⟨c, hcr, rfl⟩ := List.mem_map.mp hl
          rcases List.mem_cons.mp hchl with rfl | hchl
          · decide
          · exact (hws_all c (hrestmem c hcr) ch hchl).1
      obtain ⟨h0, t0, ht0⟩ := List.exists_cons_of_ne_nil htok0ne
      have hcpne : restConstraintChars VS c0 ++
          (rest.map fun c => '|' :: restConstraintChars VS c).flatten ≠ [] := by
        intro he
        exact htok0ne (List.append_eq_nil.mp he).1
      have hcpstar : restConstraintChars VS c0 ++
          (rest.map fun c => '|' :: restConstraintChars VS c).flatten ≠ ['*'] := by
        intro he
        rw [ht0, List.cons_append] at he
        simp only [List.cons.injEq] at he
        obtain ⟨he1, he2⟩ := he
        rw [List.append_eq_nil] at he2
        have : restConstraintChars VS c0 = ['*'] := by
          rw [ht0, he1, he2.1]
        exact restTok_ne_star VS c0 (hT c0 hc0mem).1 (hT c0 hc0mem).2.1 this
      obtain ⟨u, hu, hune, hul⟩ :=
        @join_getLast '|' (rest.map (restConstraintChars VS))
          (restConstraintChars VS c0) htok0ne hne_all
      have htrimpipe : trimPipe (restConstraintChars VS c0 ++
          (rest.map fun c => '|' :: restConstraintChars VS c).flatten) =
          restConstraintChars VS c0 ++
          (rest.map fun c => '|' :: restConstraintChars VS c).flatten := by
        apply trimPipe_eq_self
        · intro c hch
          rw [ht0, List.cons_append] at hch
          have hch' : h0 = c := by simpa using hch
          subst hch'
          exact (hws_all c0 hc0mem h0 (by rw [ht0]; simp)).2
        · intro c hcl
          rw [he_cpart, hul, List.getLast?_eq_getLast u hune] at hcl
          have hcl' : u.getLast hune = c := by simpa using hcl
          subst hcl'
          have hm := List.getLast_mem hune
          rcases hu with rfl | hu
          · exact (hws_all c0 hc0mem _ hm).2
          · obtain ⟨c', hcr, rfl⟩ := List.mem_map.mp hu
            exact (hws_all c' (hrestmem c' hcr) _ hm).2
      have hsplit : splitChar '|' (restConstraintChars VS c0 ++
          (rest.map fun c => '|' :: restConstraintChars VS c).flatten) =
          (c0 :: rest).map (restConstraintChars VS) := by
        rw [he_cpart, List.map_cons]
        exact splitChar_join (rest.map (restConstraintChars VS)) _ hpipe0 hpipe_all
      have hfilter : ((c0 :: rest).map (restConstraintChars VS)).filter
          (fun t => ¬ t = []) = (c0 :: rest).map (restConstraintChars VS) := by
        apply List.filter_eq_self.mpr
        intro a ha
        rw [List.map_cons] at ha
        rcases List.mem_cons.mp ha with rfl | ha
        · simpa using htok0ne
        · simpa using hne_all a ha
      have hparse : parseAll VS ((c0 :: rest).map (restConstraintChars VS)) =
          .ok (c0 :: rest) := by
        apply parseAll_map_rest
        intro c hc
        rw [← hcons] at hc
        exact ⟨hnoany c hc, hT c hc, hP c hc⟩
      have hdisp : displayChars VS r =
          some ("vers:".toList ++ r.versioning_scheme ++ '/' ::
            (restConstraintChars VS c0 ++
              (rest.map fun c => '|' :: restConstraintChars VS c).flatten)) := by
        unfold displayChars
        rw [hcons]
        simp [firstRest_eq VS c0 hA, List.append_assoc]
      refine ⟨_, hdisp, r, ?_, hdisp⟩
      rw [from_str_struct VS _ _ hS hwscp, if_neg hcpne, if_neg hcpstar,
        htrimpipe, hsplit, hfilter, if_neg (by simp), hparse]
      have her : (⟨r.versioning_scheme, c0 :: rest⟩ : VersionRange V) = r := by
        rw [← hcons]
      change normalize_and_validate VS.vdisplay
        ⟨r.versioning_scheme, c0 :: rest⟩ = .ok r
      rw [her]
      exact normalize_idempotent h

/-- Counterexample to the unconditioned C2 claim: the range with upper-case
scheme `NPM` and sole constraint `=1` normalizes successfully to itself, but
`from_str` lower-cases the scheme, so displaying the re-parsed range yields
`vers:npm/1` instead of the original `vers:NPM/1`. -/
theorem display_roundtrip_counterexample :
    ∃ (r r2 : VersionRange Nat) (d d2 : List Char),
      normalize_and_validate NatVS.vdisplay r = .ok r ∧
      displayChars NatVS r = some d ∧
      from_str NatVS d = .ok r2 ∧
      displayChars NatVS r2 = some d2 ∧
      d2 ≠ d := by
  refine ⟨⟨"NPM".toList, [⟨Comparator.Equal, 1⟩]⟩,
    ⟨"npm".toList, [⟨Comparator.Equal, 1⟩]⟩,
    "vers:NPM/1".toList, "vers:npm/1".toList, ?_, ?_, ?_, ?_, ?_⟩ <;> decide

/-- Witness for `display_parse_display_roundtrip` at the concrete
normalized range `vers:npm/1` over the `Nat` scheme. -/
theorem display_parse_display_roundtrip_witness :
    ∃ d, displayChars NatVS
        ⟨"npm".toList, [⟨Comparator.Equal, (1 : Nat)⟩]⟩ = some d ∧
      ∃ r2, from_str NatVS d = .ok r2 ∧ displayChars NatVS r2 = some d :=
  display_parse_display_roundtrip NatVS
    ⟨"npm".toList, [⟨Comparator.Equal, 1⟩]⟩
    ⟨"npm".toList, [⟨Comparator.Equal, 1⟩]⟩
    (by decide) (by decide) (by decide) (by decide)
